import Mathlib

/-!
# Verification of the `linked-tail-list` library

A shallow embedding of `src/lib.rs` (the "tail list": a singly linked list
whose nodes also carry a back-link to the `Link` slot that currently owns
them), together with proofs about its structural algorithms
(`insert_at`, `swap_places`, `unlink`, `fixup_owning_link`) and the public
operations built from them (`TailList::push`, `TailList::cursor`,
`Cursor::next`, `Cursor` drop, `ValRef::insert_before` / `insert_after` /
`remove`, `TailValRef::tail` / `into_tail`).

The heap is modelled explicitly: nodes live at `Nat` addresses, and a
`Link` cell is identified by the place it lives in (`LinkId.head` for the
list head, `LinkId.nextOf n` for the forward link inside node `n`).  The
content of a link is an `Option Nat` (the address of the owned node, if
any), exactly mirroring `struct Link<T>(Option<Box<NodeOwn<T>>>)`.
Reading through a dangling node reference is undefined behaviour in the
source; the model totalises such reads to `none` / no-ops, and every
theorem below only ever runs the operations on live nodes.
-/

set_option maxRecDepth 4096

/-- The identity of a `Link` cell: every `Link` lives either in the list
head (`TailList::head`) or in the `next` field of some node. -/
inductive LinkId where
  | head : LinkId
  | nextOf : Nat → LinkId
deriving DecidableEq, Repr

/-- One list node, mirroring `struct Node<T>`: the forward link's content
(`next`), the back-link (`owning_link`), and the optional payload (`val`;
`none` marks a dummy/sentinel node). -/
structure Node (T : Type) where
  next : Option Nat
  owning_link : LinkId
  val : Option T
deriving Repr

/-- The whole mutable state: content of the list's head link, the node
heap (addresses to nodes), and the next fresh address used when a node is
allocated with `Box::new`. -/
structure State (T : Type) where
  headLink : Option Nat
  nodes : Nat → Option (Node T)
  fresh : Nat

/-- `TailList::new()`: an empty list, one link owning nothing, no nodes. -/
def emptyState (T : Type) : State T :=
  { headLink := none, nodes := fun _ => none, fresh := 0 }

/-- Read the content of a link cell (`Link::opt_node_ref` seen through the
heap).  Reading the forward link of an absent node yields `none`. -/
def linkGet (s : State T) : LinkId → Option Nat
  | .head => s.headLink
  | .nextOf n =>
    match s.nodes n with
    | some nd => nd.next
    | none => none

/-- Apply a function to the node stored at address `n` (no-op when absent). -/
def updNode (s : State T) (n : Nat) (g : Node T → Node T) : State T :=
  { s with nodes := fun m => if m = n then (s.nodes n).map g else s.nodes m }

/-- Overwrite the content of a link cell. -/
def setLink (s : State T) : LinkId → Option Nat → State T
  | .head, c => { s with headLink := c }
  | .nextOf n, c => updNode s n (fun nd => { nd with next := c })

/-- Overwrite the `owning_link` field of node `n`. -/
def setOwning (s : State T) (n : Nat) (L : LinkId) : State T :=
  updNode s n (fun nd => { nd with owning_link := L })

/-- The current value of node `n`'s `owning_link` field (junk default for
an absent node; never relied upon). -/
def owningD (s : State T) (n : Nat) : LinkId :=
  match s.nodes n with
  | some nd => nd.owning_link
  | none => .head

/-- The payload currently stored at address `n`, if the node is alive. -/
def valOf (s : State T) (n : Nat) : Option T :=
  (s.nodes n).bind Node.val

/-- The back-link currently stored at address `n`, if the node is alive. -/
def ownOf (s : State T) (n : Nat) : Option LinkId :=
  (s.nodes n).map Node.owning_link

/-- `fixup_owning_link`: if link `L` owns a node, set that node's
back-link to `L`. -/
def fixup_owning_link (s : State T) (L : LinkId) : State T :=
  match linkGet s L with
  | some n => setOwning s n L
  | none => s

/-- `insert_at(link, val)`: allocate a node with back-link `link` whose
forward slot receives `link`'s old content, point `link` at the new node,
then restore the back-link of the node now one hop further down.  Returns
the new state and the new node's address. -/
def insert_at (s : State T) (L : LinkId) (v : Option T) : State T × Nat :=
  let id := s.fresh
  let c := linkGet s L
  let s1 : State T :=
    { s with
      nodes := fun m => if m = id then some ⟨c, L, v⟩ else s.nodes m,
      fresh := s.fresh + 1 }
  let s2 := setLink s1 L (some id)
  let s3 := fixup_owning_link s2 (.nextOf id)
  (s3, id)

/-- `swap_places(a, b)`: exchange the contents of the two owning links,
then of the two forward links, then run `fixup_owning_link` on (the
current values of) `a.owning_link`, `b.owning_link`, and on the two
forward-link cells, in source order. -/
def swap_places (s : State T) (a b : Nat) : State T :=
  let aL := owningD s a
  let bL := owningD s b
  let ca := linkGet s aL
  let cb := linkGet s bL
  let s1 := setLink (setLink s aL cb) bL ca
  let na := linkGet s1 (.nextOf a)
  let nb := linkGet s1 (.nextOf b)
  let s2 := setLink (setLink s1 (.nextOf a) nb) (.nextOf b) na
  let s3 := fixup_owning_link s2 (owningD s2 a)
  let s4 := fixup_owning_link s3 (owningD s3 b)
  let s5 := fixup_owning_link s4 (.nextOf a)
  let s6 := fixup_owning_link s5 (.nextOf b)
  s6

/-- `unlink(node)`: repoint the link owning `node` at `node`'s tail, fix
the back-link of the node that moved up, free `node`, and return its
payload. -/
def unlink (s : State T) (n : Nat) : Option T × State T :=
  let L := owningD s n
  let nx := linkGet s (.nextOf n)
  let s1 := setLink s L nx
  let s2 := setLink s1 (.nextOf n) none
  let s3 := fixup_owning_link s2 L
  let v := (s.nodes n).bind Node.val
  let s4 : State T := { s3 with nodes := fun m => if m = n then none else s3.nodes m }
  (v, s4)

/-- `TailList::push`: `insert_at(head, Some(val))`. -/
def push (s : State T) (v : T) : State T :=
  (insert_at s .head (some v)).1

/-- Push a whole sequence in order (left to right), as a test driver
would. -/
def pushAll (s : State T) : List T → State T
  | [] => s
  | v :: vs => pushAll (push s v) vs

/-- `TailList::cursor` / `Cursor::new(&head)`: insert the cursor's dummy
node at the head link; returns the state and the dummy's address. -/
def mkCursor (s : State T) : State T × Nat :=
  insert_at s .head none

/-- `Cursor::next`, fuelled (the source recursion "skip a dummy and call
`next` again" is modelled with explicit fuel; `none` means the fuel ran
out, which never happens on well-formed states).  On success returns the
new state and `some node` (a `TailValRef` to `node`) or `none` for end of
list.  Dereferencing a dangling successor is undefined behaviour in the
source and is modelled as fuel-style divergence. -/
def cursorNext : Nat → State T → Nat → Option (State T × Option Nat)
  | 0, _, _ => none
  | f + 1, s, d =>
    match linkGet s (.nextOf d) with
    | none => some (s, none)
    | some b =>
      let s1 := swap_places s d b
      match s1.nodes b with
      | none => none
      | some nd =>
        match nd.val with
        | none => cursorNext f s1 d
        | some _ => some (s1, some b)

/-- `Drop for Cursor`: unlink the dummy node. -/
def dropCursor (s : State T) (d : Nat) : State T :=
  (unlink s d).2

/-- `ValRef::insert_before`: `insert_at(self.node.owning_link, Some(val))`. -/
def insertBefore (s : State T) (n : Nat) (v : T) : State T × Nat :=
  insert_at s (owningD s n) (some v)

/-- `ValRef::insert_after`: `insert_at(self.node.next, Some(val))`. -/
def insertAfter (s : State T) (n : Nat) (v : T) : State T × Nat :=
  insert_at s (.nextOf n) (some v)

/-- `ValRef::remove`: `unlink` the node; `None` models the
`unreachable!("cannot remove dummy node")` panic taken when the unlinked
node carried no payload, `some (v, s')` the normal return. -/
def removeVal (s : State T) (n : Nat) : Option (T × State T) :=
  match unlink s n with
  | (some v, s') => some (v, s')
  | (none, _) => none

/-- `TailValRef::tail` / `TailValRef::into_tail`: both build
`Cursor::new(&node.next)`, i.e. insert a fresh dummy right after the
handle's node; they differ only in borrow bookkeeping, not in state. -/
def tailSplit (s : State T) (n : Nat) : State T × Nat :=
  insert_at s (.nextOf n) none

/-- Drain a cursor: repeatedly call `next`, dereferencing each returned
handle, until it yields nothing; returns the final state and the values
seen, in order.  Fuelled like `cursorNext`. -/
def drainAux : Nat → State T → Nat → Option (State T × List T)
  | 0, _, _ => none
  | f + 1, s, d =>
    match cursorNext (f + 1) s d with
    | none => none
    | some (s', none) => some (s', [])
    | some (s', some n) =>
      match valOf s' n with
      | none => none
      | some v =>
        match drainAux f s' d with
        | none => none
        | some (s'', vs) => some (s'', v :: vs)

/-- The value a `cursorNext` result exposes through `Deref`, if any
(used to phrase concrete scenarios compactly). -/
def nextVal (o : Option (State T × Option Nat)) : Option (Option T) :=
  o.map (fun p => p.2.bind (valOf p.1))

/-- The state a `cursorNext` / step result carries (with a default for
the impossible fuel-exhaustion case). -/
def stepState (dflt : State T) (o : Option (State T × Option Nat)) : State T :=
  (o.map Prod.fst).getD dflt

/-! ## The list abstraction: chain segments and the back-link invariant -/

/-- `Seg s L l`: starting at link `L`, the nodes of `l` are linked one
after another, and every one of them is alive with its back-link equal to
the link that owns it (the back-link invariant, locally). -/
def Seg (s : State T) : LinkId → List Nat → Prop
  | _, [] => True
  | L, n :: l => linkGet s L = some n ∧ ownOf s n = some L ∧ Seg s (.nextOf n) l

/-- The link one past the segment `l` when it starts at `L`. -/
def endLink : LinkId → List Nat → LinkId
  | L, [] => L
  | _, n :: l => endLink (.nextOf n) l

/-- The links read by `Seg s L l` (everything up to, but not including,
`endLink L l`). -/
def segLinks : LinkId → List Nat → List LinkId
  | _, [] => []
  | L, n :: l => L :: segLinks (.nextOf n) l

/-- `ChainL s L l`: the complete tail hanging off link `L` is exactly the
node list `l`, with the back-link invariant holding along it. -/
def ChainL (s : State T) (L : LinkId) (l : List Nat) : Prop :=
  Seg s L l ∧ linkGet s (endLink L l) = none

/-- Well-formed state: the nodes reachable from the head are exactly `l`
with correct back-links, and no address at or above `fresh` is live. -/
def WFS (s : State T) (l : List Nat) : Prop :=
  ChainL s .head l ∧ ∀ n, s.fresh ≤ n → s.nodes n = none

def segDecidable (s : State T) : ∀ (l : List Nat) (L : LinkId), Decidable (Seg s L l)
  | [], _ => by unfold Seg; infer_instance
  | n :: l, L => by
    have h := segDecidable s l (.nextOf n)
    unfold Seg
    infer_instance

instance (s : State T) (L : LinkId) (l : List Nat) : Decidable (Seg s L l) :=
  segDecidable s l L

instance (s : State T) (L : LinkId) (l : List Nat) : Decidable (ChainL s L l) :=
  inferInstanceAs (Decidable (_ ∧ _))

/-! ## Projection lemmas for the state primitives -/

@[simp]
theorem fresh_setLink (s : State T) (L : LinkId) (c : Option Nat) :
    (setLink s L c).fresh = s.fresh := by
  cases L <;> rfl

@[simp]
theorem fresh_setOwning (s : State T) (n : Nat) (L : LinkId) :
    (setOwning s n L).fresh = s.fresh := rfl

@[simp]
theorem fresh_fixup (s : State T) (L : LinkId) :
    (fixup_owning_link s L).fresh = s.fresh := by
  unfold fixup_owning_link
  split <;> simp

theorem linkGet_setLink_ne (s : State T) {L M : LinkId} (c : Option Nat) (h : M ≠ L) :
    linkGet (setLink s L c) M = linkGet s M := by
  cases L <;> cases M <;> simp_all [setLink, updNode, linkGet]

@[simp]
theorem linkGet_setLink_head (s : State T) (c : Option Nat) :
    linkGet (setLink s .head c) .head = c := rfl

theorem linkGet_setLink_next (s : State T) {n : Nat} {nd : Node T} (c : Option Nat)
    (h : s.nodes n = some nd) :
    linkGet (setLink s (.nextOf n) c) (.nextOf n) = c := by
  simp [setLink, updNode, linkGet, h]

@[simp]
theorem valOf_setLink (s : State T) (L : LinkId) (c : Option Nat) (m : Nat) :
    valOf (setLink s L c) m = valOf s m := by
  cases L with
  | head => rfl
  | nextOf n =>
    simp only [setLink, updNode, valOf]
    split
    · next h => subst h; cases s.nodes m <;> rfl
    · rfl

@[simp]
theorem ownOf_setLink (s : State T) (L : LinkId) (c : Option Nat) (m : Nat) :
    ownOf (setLink s L c) m = ownOf s m := by
  cases L with
  | head => rfl
  | nextOf n =>
    simp only [setLink, updNode, ownOf]
    split
    · next h => subst h; cases s.nodes m <;> rfl
    · rfl

@[simp]
theorem nodesIsSome_setLink (s : State T) (L : LinkId) (c : Option Nat) (m : Nat) :
    ((setLink s L c).nodes m).isSome = (s.nodes m).isSome := by
  cases L with
  | head => rfl
  | nextOf n =>
    simp only [setLink, updNode]
    split
    · next h => subst h; cases s.nodes m <;> rfl
    · rfl

@[simp]
theorem linkGet_setOwning (s : State T) (n : Nat) (L : LinkId) (M : LinkId) :
    linkGet (setOwning s n L) M = linkGet s M := by
  cases M with
  | head => rfl
  | nextOf m =>
    rcases eq_or_ne m n with rfl | h
    · simp only [setOwning, updNode, linkGet, if_pos rfl]
      cases s.nodes m <;> rfl
    · simp only [setOwning, updNode, linkGet, if_neg h]

@[simp]
theorem valOf_setOwning (s : State T) (n : Nat) (L : LinkId) (m : Nat) :
    valOf (setOwning s n L) m = valOf s m := by
  simp only [setOwning, updNode, valOf]
  split
  · next h => subst h; cases s.nodes m <;> rfl
  · rfl

theorem ownOf_setOwning_self (s : State T) {n : Nat} {nd : Node T} (L : LinkId)
    (h : s.nodes n = some nd) :
    ownOf (setOwning s n L) n = some L := by
  simp [setOwning, updNode, ownOf, h]

theorem ownOf_setOwning_ne (s : State T) {n m : Nat} (L : LinkId) (h : m ≠ n) :
    ownOf (setOwning s n L) m = ownOf s m := by
  simp [setOwning, updNode, ownOf, h]

@[simp]
theorem nodesIsSome_setOwning (s : State T) (n : Nat) (L : LinkId) (m : Nat) :
    ((setOwning s n L).nodes m).isSome = (s.nodes m).isSome := by
  simp only [setOwning, updNode]
  split
  · next h => subst h; cases s.nodes m <;> rfl
  · rfl

@[simp]
theorem linkGet_fixup (s : State T) (L : LinkId) (M : LinkId) :
    linkGet (fixup_owning_link s L) M = linkGet s M := by
  unfold fixup_owning_link
  split <;> simp

@[simp]
theorem valOf_fixup (s : State T) (L : LinkId) (m : Nat) :
    valOf (fixup_owning_link s L) m = valOf s m := by
  unfold fixup_owning_link
  split <;> simp

@[simp]
theorem nodesIsSome_fixup (s : State T) (L : LinkId) (m : Nat) :
    ((fixup_owning_link s L).nodes m).isSome = (s.nodes m).isSome := by
  unfold fixup_owning_link
  split <;> simp

theorem fixup_of_none (s : State T) {L : LinkId} (h : linkGet s L = none) :
    fixup_owning_link s L = s := by
  unfold fixup_owning_link
  rw [h]

theorem ownOf_fixup_target (s : State T) {L : LinkId} {m : Nat} {nd : Node T}
    (h : linkGet s L = some m) (hm : s.nodes m = some nd) :
    ownOf (fixup_owning_link s L) m = some L := by
  unfold fixup_owning_link
  rw [h]
  exact ownOf_setOwning_self s L hm

theorem ownOf_fixup_ne (s : State T) {L : LinkId} {m : Nat}
    (h : linkGet s L ≠ some m) :
    ownOf (fixup_owning_link s L) m = ownOf s m := by
  unfold fixup_owning_link
  split
  · next n hn =>
    exact ownOf_setOwning_ne s L (fun hh => h (hh ▸ hn))
  · rfl

theorem owningD_eq (s : State T) {n : Nat} {L : LinkId} (h : ownOf s n = some L) :
    owningD s n = L := by
  unfold owningD
  unfold ownOf at h
  cases hn : s.nodes n <;> rw [hn] at h <;> simp at h
  exact h

theorem alive_of_ownOf (s : State T) {n : Nat} {L : LinkId} (h : ownOf s n = some L) :
    ∃ nd, s.nodes n = some nd := by
  unfold ownOf at h
  cases hn : s.nodes n <;> rw [hn] at h <;> simp at h
  exact ⟨_, rfl⟩

/-! ## Chain infrastructure -/

/-- A link place that may legally be written through: the head always,
a node's forward link only while the node is alive. -/
def LinkLive (s : State T) : LinkId → Prop
  | .head => True
  | .nextOf p => ∃ nd, s.nodes p = some nd

theorem chainL_nil (s : State T) (L : LinkId) :
    ChainL s L [] ↔ linkGet s L = none := by
  simp [ChainL, Seg, endLink]

theorem chainL_cons (s : State T) (L : LinkId) (n : Nat) (l : List Nat) :
    ChainL s L (n :: l) ↔
      linkGet s L = some n ∧ ownOf s n = some L ∧ ChainL s (.nextOf n) l := by
  simp [ChainL, Seg, endLink, and_assoc]

theorem endLink_append (L : LinkId) (l₁ l₂ : List Nat) :
    endLink L (l₁ ++ l₂) = endLink (endLink L l₁) l₂ := by
  induction l₁ generalizing L with
  | nil => rfl
  | cons n l ih => simp [endLink, ih]

theorem seg_append (s : State T) (L : LinkId) (l₁ l₂ : List Nat) :
    Seg s L (l₁ ++ l₂) ↔ Seg s L l₁ ∧ Seg s (endLink L l₁) l₂ := by
  induction l₁ generalizing L with
  | nil => simp [Seg, endLink]
  | cons n l ih => simp [Seg, endLink, ih, and_assoc]

theorem chainL_append (s : State T) (L : LinkId) (l₁ l₂ : List Nat) :
    ChainL s L (l₁ ++ l₂) ↔ Seg s L l₁ ∧ ChainL s (endLink L l₁) l₂ := by
  unfold ChainL
  rw [seg_append, endLink_append, and_assoc]

theorem seg_frame {s s' : State T} {L : LinkId} {l : List Nat} (h : Seg s L l)
    (hlink : ∀ M ∈ segLinks L l, linkGet s' M = linkGet s M)
    (hown : ∀ n ∈ l, ownOf s' n = ownOf s n) : Seg s' L l := by
  induction l generalizing L with
  | nil => trivial
  | cons n l ih =>
    obtain ⟨h1, h2, h3⟩ := h
    refine ⟨?_, ?_, ?_⟩
    · rw [hlink L (by simp [segLinks]), h1]
    · rw [hown n (by simp), h2]
    · exact ih h3 (fun M hM => hlink M (by simp [segLinks, hM]))
        (fun m hm => hown m (by simp [hm]))

theorem chainL_frame {s s' : State T} {L : LinkId} {l : List Nat} (h : ChainL s L l)
    (hlink : ∀ M ∈ segLinks L l, linkGet s' M = linkGet s M)
    (hown : ∀ n ∈ l, ownOf s' n = ownOf s n)
    (hend : linkGet s' (endLink L l) = linkGet s (endLink L l)) : ChainL s' L l := by
  obtain ⟨h1, h2⟩ := h
  exact ⟨seg_frame h1 hlink hown, by rw [hend, h2]⟩

theorem segLinks_sub {L : LinkId} {l : List Nat} {M : LinkId}
    (h : M ∈ segLinks L l) : M = L ∨ ∃ n ∈ l, M = .nextOf n := by
  induction l generalizing L with
  | nil => simp [segLinks] at h
  | cons n l ih =>
    simp only [segLinks, List.mem_cons] at h
    rcases h with rfl | h
    · exact .inl rfl
    · rcases ih h with rfl | ⟨m, hm, rfl⟩
      · exact .inr ⟨n, by simp⟩
      · exact .inr ⟨m, by simp [hm]⟩

theorem seg_alive {s : State T} {L : LinkId} {l : List Nat} (h : Seg s L l)
    {n : Nat} (hn : n ∈ l) : ∃ nd, s.nodes n = some nd := by
  induction l generalizing L with
  | nil => simp at hn
  | cons m l ih =>
    obtain ⟨_, h2, h3⟩ := h
    rcases List.mem_cons.mp hn with rfl | hn
    · exact alive_of_ownOf s h2
    · exact ih h3 hn

theorem seg_endLink_live {s : State T} {L : LinkId} {l : List Nat}
    (hL : LinkLive s L) (h : Seg s L l) : LinkLive s (endLink L l) := by
  induction l generalizing L with
  | nil => exact hL
  | cons n l ih =>
    obtain ⟨_, h2, h3⟩ := h
    exact ih (alive_of_ownOf s h2) h3

theorem chainL_det {s : State T} {M : LinkId} {l l' : List Nat}
    (h : ChainL s M l) (h' : ChainL s M l') : l = l' := by
  induction l generalizing M l' with
  | nil =>
    cases l' with
    | nil => rfl
    | cons n' w =>
      rw [chainL_nil] at h
      rw [chainL_cons] at h'
      rw [h] at h'
      exact absurd h'.1 (by simp)
  | cons n w ih =>
    rw [chainL_cons] at h
    cases l' with
    | nil =>
      rw [chainL_nil] at h'
      rw [h'] at h
      exact absurd h.1 (by simp)
    | cons n' w' =>
      rw [chainL_cons] at h'
      obtain ⟨e1, _, e3⟩ := h
      obtain ⟨f1, _, f3⟩ := h'
      rw [e1] at f1
      obtain rfl := Option.some.inj f1
      rw [ih e3 f3]

theorem chainL_head_not_mem {s : State T} {L : LinkId} {n : Nat} {l : List Nat}
    (h : ChainL s L (n :: l)) : n ∉ l := by
  intro hmem
  obtain ⟨u, w, rfl⟩ := List.append_of_mem hmem
  have hsplit : (n :: (u ++ n :: w)) = (n :: u) ++ (n :: w) := by simp
  rw [hsplit, chainL_append] at h
  obtain ⟨hseg, htail⟩ := h
  have hownL : ownOf s n = some L := by
    obtain ⟨_, h2, _⟩ := hseg
    exact h2
  have hownE : ownOf s n = some (endLink L (n :: u)) := by
    rw [chainL_cons] at htail
    exact htail.2.1
  have hE : endLink L (n :: u) = L := by
    rw [hownL] at hownE
    injection hownE with ff
    exact ff.symm
  have h1 : ChainL s L ((n :: u) ++ (n :: w)) := by
    rw [chainL_append]
    exact ⟨hseg, hE ▸ htail⟩
  have h2 : ChainL s L (n :: w) := hE ▸ htail
  have := chainL_det h1 h2
  have hlen := congrArg List.length this
  simp at hlen
  omega

theorem chainL_nodup {s : State T} {L : LinkId} {l : List Nat}
    (h : ChainL s L l) : l.Nodup := by
  induction l generalizing L with
  | nil => exact List.nodup_nil
  | cons n l ih =>
    have hmem := chainL_head_not_mem h
    rw [chainL_cons] at h
    exact List.nodup_cons.mpr ⟨hmem, ih h.2.2⟩

/-! ## Shape lemmas for `endLink` / `segLinks` -/

theorem endLink_form (L : LinkId) (l : List Nat) :
    endLink L l = L ∨ ∃ q ∈ l, endLink L l = .nextOf q := by
  induction l generalizing L with
  | nil => exact .inl rfl
  | cons n l ih =>
    rcases ih (.nextOf n) with h | ⟨q, hq, h⟩
    · exact .inr ⟨n, by simp, h⟩
    · exact .inr ⟨q, by simp [hq], h⟩

theorem endLink_not_mem_segLinks :
    ∀ {l : List Nat} {L : LinkId}, l.Nodup → (∀ q, L = .nextOf q → q ∉ l) →
      endLink L l ∉ segLinks L l := by
  intro l
  induction l with
  | nil => intro L _ _ h; simp [segLinks] at h
  | cons n l ih =>
    intro L hnd hq h
    simp only [segLinks, endLink, List.mem_cons] at h
    rcases h with h | h
    · rcases endLink_form (.nextOf n) l with he | ⟨q, hql, he⟩
      · rw [he] at h
        exact hq n h.symm (by simp)
      · rw [he] at h
        exact hq q h.symm (by simp [hql])
    · exact ih (List.nodup_cons.mp hnd).2
        (fun q hL hql => by
          obtain rfl : n = q := by
            injection hL
          exact (List.nodup_cons.mp hnd).1 hql) h

theorem alive_lt_fresh {s : State T} (hfr : ∀ m, s.fresh ≤ m → s.nodes m = none)
    {n : Nat} {nd : Node T} (h : s.nodes n = some nd) : n < s.fresh := by
  by_contra hge
  rw [hfr n (by omega)] at h
  exact Option.noConfusion h

/-! ## Read-characterization of `insert_at` -/

/-- The heap right after `Own::new(Node::new(val, link.new_ref()))` plus
the two swaps inside `insert_at`: the new node is allocated at the fresh
address, already carrying the old link content in its forward slot. -/
def allocNode (s : State T) (c : Option Nat) (L : LinkId) (v : Option T) : State T :=
  { s with
    nodes := fun m => if m = s.fresh then some ⟨c, L, v⟩ else s.nodes m,
    fresh := s.fresh + 1 }

theorem insert_at_def (s : State T) (L : LinkId) (v : Option T) :
    insert_at s L v =
      (fixup_owning_link
        (setLink (allocNode s (linkGet s L) L v) L (some s.fresh))
        (.nextOf s.fresh), s.fresh) := rfl

@[simp]
theorem allocNode_fresh (s : State T) (c : Option Nat) (L : LinkId) (v : Option T) :
    (allocNode s c L v).fresh = s.fresh + 1 := rfl

theorem allocNode_nodes_self (s : State T) (c : Option Nat) (L : LinkId) (v : Option T) :
    (allocNode s c L v).nodes s.fresh = some ⟨c, L, v⟩ := by
  simp [allocNode]

theorem allocNode_nodes_ne (s : State T) (c : Option Nat) (L : LinkId) (v : Option T)
    {m : Nat} (h : m ≠ s.fresh) :
    (allocNode s c L v).nodes m = s.nodes m := by
  simp [allocNode, h]

theorem linkGet_allocNode_self (s : State T) (c : Option Nat) (L : LinkId) (v : Option T) :
    linkGet (allocNode s c L v) (.nextOf s.fresh) = c := by
  simp [linkGet, allocNode_nodes_self]

theorem linkGet_allocNode_ne (s : State T) (c : Option Nat) (L : LinkId) (v : Option T)
    {M : LinkId} (h : M ≠ .nextOf s.fresh) :
    linkGet (allocNode s c L v) M = linkGet s M := by
  cases M with
  | head => rfl
  | nextOf q =>
    have hq : q ≠ s.fresh := fun hh => h (by rw [hh])
    simp [linkGet, allocNode_nodes_ne s c L v hq]

theorem valOf_allocNode_self (s : State T) (c : Option Nat) (L : LinkId) (v : Option T) :
    valOf (allocNode s c L v) s.fresh = v := by
  simp [valOf, allocNode_nodes_self]

theorem valOf_allocNode_ne (s : State T) (c : Option Nat) (L : LinkId) (v : Option T)
    {m : Nat} (h : m ≠ s.fresh) :
    valOf (allocNode s c L v) m = valOf s m := by
  simp [valOf, allocNode_nodes_ne s c L v h]

theorem ownOf_allocNode_self (s : State T) (c : Option Nat) (L : LinkId) (v : Option T) :
    ownOf (allocNode s c L v) s.fresh = some L := by
  simp [ownOf, allocNode_nodes_self]

theorem ownOf_allocNode_ne (s : State T) (c : Option Nat) (L : LinkId) (v : Option T)
    {m : Nat} (h : m ≠ s.fresh) :
    ownOf (allocNode s c L v) m = ownOf s m := by
  simp [ownOf, allocNode_nodes_ne s c L v h]

theorem insert_at_reads (s : State T) (L : LinkId) (v : Option T)
    (hL : LinkLive s L)
    (hfr : ∀ m, s.fresh ≤ m → s.nodes m = none)
    (hc : ∀ m, linkGet s L = some m → ∃ nd, s.nodes m = some nd) :
    (insert_at s L v).2 = s.fresh
    ∧ (insert_at s L v).1.fresh = s.fresh + 1
    ∧ linkGet (insert_at s L v).1 L = some s.fresh
    ∧ linkGet (insert_at s L v).1 (.nextOf s.fresh) = linkGet s L
    ∧ valOf (insert_at s L v).1 s.fresh = v
    ∧ ownOf (insert_at s L v).1 s.fresh = some L
    ∧ (∀ m, linkGet s L = some m → ownOf (insert_at s L v).1 m = some (.nextOf s.fresh))
    ∧ (∀ m, m ≠ s.fresh → valOf (insert_at s L v).1 m = valOf s m)
    ∧ (∀ m, m ≠ s.fresh → linkGet s L ≠ some m → ownOf (insert_at s L v).1 m = ownOf s m)
    ∧ (∀ M, M ≠ L → M ≠ .nextOf s.fresh → linkGet (insert_at s L v).1 M = linkGet s M)
    ∧ (∀ m, m ≠ s.fresh → ((insert_at s L v).1.nodes m).isSome = (s.nodes m).isSome) := by
  have hdead : s.nodes s.fresh = none := hfr s.fresh le_rfl
  have hLne : L ≠ .nextOf s.fresh := by
    cases L with
    | head => intro h; exact LinkId.noConfusion h
    | nextOf p =>
      intro h
      obtain ⟨nd, hnd⟩ := hL
      obtain rfl : p = s.fresh := by injection h
      rw [hdead] at hnd
      exact Option.noConfusion hnd
  rw [insert_at_def]
  set c := linkGet s L with hcdef
  set sA := allocNode s c L v with hsA
  -- the allocated node is alive in `sA`, and `L` is still live there
  have hAid : sA.nodes s.fresh = some ⟨c, L, v⟩ := allocNode_nodes_self s c L v
  have hAlive : LinkLive sA L := by
    cases L with
    | head => trivial
    | nextOf p =>
      obtain ⟨nd, hnd⟩ := hL
      have hp : p ≠ s.fresh := by
        intro hh
        rw [hh, hdead] at hnd
        exact Option.noConfusion hnd
      exact ⟨nd, by rw [allocNode_nodes_ne s c (LinkId.nextOf p) v hp, hnd]⟩
  set sB := setLink sA L (some s.fresh) with hsB
  -- link contents after pointing `L` at the new node
  have hBL : linkGet sB L = some s.fresh := by
    cases L with
    | head => rw [hsB]; exact linkGet_setLink_head sA _
    | nextOf p =>
      obtain ⟨nd, hnd⟩ := hAlive
      rw [hsB]; exact linkGet_setLink_next sA _ hnd
  have hBid : linkGet sB (.nextOf s.fresh) = c := by
    rw [hsB, linkGet_setLink_ne sA _ (fun h => hLne h.symm)]
    exact linkGet_allocNode_self s c L v
  have hBother : ∀ M, M ≠ L → M ≠ .nextOf s.fresh → linkGet sB M = linkGet s M := by
    intro M h1 h2
    rw [hsB, linkGet_setLink_ne sA _ h1, hsA, linkGet_allocNode_ne s c L v h2]
  -- the final fixup step acts on `c`
  rcases hcc : c with _ | m
  · -- nothing linked after the new node: the fixup is a no-op
    have hfix : fixup_owning_link sB (.nextOf s.fresh) = sB := by
      apply fixup_of_none
      rw [hBid, hcc]
    rw [hfix]
    refine ⟨rfl, by simp [hsB, hsA], hBL, by rw [hBid]; exact hcc, ?_, ?_, ?_, ?_, ?_, ?_, ?_⟩
    · rw [hsB, valOf_setLink, hsA, valOf_allocNode_self]
    · rw [hsB, ownOf_setLink, hsA, ownOf_allocNode_self]
    · intro m hm
      exact Option.noConfusion hm
    · intro m hm
      rw [hsB, valOf_setLink, hsA, valOf_allocNode_ne s c L v hm]
    · intro m hm _
      rw [hsB, ownOf_setLink, hsA, ownOf_allocNode_ne s c L v hm]
    · exact hBother
    · intro m hm
      rw [hsB, nodesIsSome_setLink, hsA, allocNode_nodes_ne s c L v hm]
  · -- the old target `m` gets its back-link repointed to the new node
    obtain ⟨nd, hnd⟩ := hc m hcc
    have hmlt : m < s.fresh := alive_lt_fresh hfr hnd
    have hmne : m ≠ s.fresh := by omega
    have hBm : ∃ nd', sB.nodes m = some nd' := by
      have h1 : sA.nodes m = some nd := by
        rw [hsA, allocNode_nodes_ne s c L v hmne, hnd]
      have h2 : (sB.nodes m).isSome := by
        rw [hsB, nodesIsSome_setLink, h1]
        rfl
      exact Option.isSome_iff_exists.mp h2
    have hfix : fixup_owning_link sB (.nextOf s.fresh) = setOwning sB m (.nextOf s.fresh) := by
      unfold fixup_owning_link
      rw [hBid, hcc]
    rw [hfix]
    refine ⟨rfl, by simp [hsB, hsA], by simp [hBL], by simp [hBid, hcc], ?_, ?_, ?_, ?_, ?_, ?_, ?_⟩
    · rw [valOf_setOwning, hsB, valOf_setLink, hsA, valOf_allocNode_self]
    · rw [ownOf_setOwning_ne sB _ hmne.symm, hsB, ownOf_setLink, hsA, ownOf_allocNode_self]
    · intro m' hm'
      obtain rfl := Option.some.inj hm'
      obtain ⟨nd', hnd'⟩ := hBm
      exact ownOf_setOwning_self sB _ hnd'
    · intro m' hm'
      rw [valOf_setOwning, hsB, valOf_setLink, hsA, valOf_allocNode_ne s c L v hm']
    · intro m' hm1 hm2
      have hmm : m' ≠ m := by
        intro hh
        exact hm2 (by rw [hh])
      rw [ownOf_setOwning_ne sB _ hmm, hsB, ownOf_setLink, hsA,
        ownOf_allocNode_ne s c L v hm1]
    · intro M h1 h2
      rw [linkGet_setOwning]
      exact hBother M h1 h2
    · intro m' hm'
      rw [nodesIsSome_setOwning, hsB, nodesIsSome_setLink, hsA,
        allocNode_nodes_ne s c L v hm']

theorem insert_at_chain {s : State T} {l₁ l₂ : List Nat} (v : Option T)
    (h : WFS s (l₁ ++ l₂)) :
    WFS (insert_at s (endLink .head l₁) v).1 (l₁ ++ s.fresh :: l₂)
    ∧ (insert_at s (endLink .head l₁) v).2 = s.fresh
    ∧ valOf (insert_at s (endLink .head l₁) v).1 s.fresh = v
    ∧ (∀ m, m ≠ s.fresh → valOf (insert_at s (endLink .head l₁) v).1 m = valOf s m)
    ∧ (insert_at s (endLink .head l₁) v).1.fresh = s.fresh + 1 := by
  obtain ⟨hch, hfr⟩ := h
  have hnd : (l₁ ++ l₂).Nodup := chainL_nodup hch
  have hnd₁ : l₁.Nodup := hnd.of_append_left
  have hnd₂ : l₂.Nodup := hnd.of_append_right
  have hdisj : l₁.Disjoint l₂ := List.disjoint_of_nodup_append hnd
  rw [chainL_append] at hch
  obtain ⟨hseg, htail⟩ := hch
  set L := endLink .head l₁ with hLdef
  have hL : LinkLive s L := seg_endLink_live trivial hseg
  have halive₁ : ∀ n ∈ l₁, ∃ nd, s.nodes n = some nd := fun n hn => seg_alive hseg hn
  have halive₂ : ∀ n ∈ l₂, ∃ nd, s.nodes n = some nd := by
    intro n hn
    rcases l₂ with _ | ⟨m', l₂'⟩
    · simp at hn
    · rw [chainL_cons] at htail
      rcases List.mem_cons.mp hn with rfl | hn'
      · exact alive_of_ownOf s htail.2.1
      · obtain ⟨hsg, _⟩ := htail.2.2
        exact seg_alive hsg hn'
  have hc : ∀ m, linkGet s L = some m → ∃ nd, s.nodes m = some nd := by
    intro m hm
    rcases l₂ with _ | ⟨m', l₂'⟩
    · rw [chainL_nil] at htail
      rw [htail] at hm
      exact Option.noConfusion hm
    · rw [chainL_cons] at htail
      obtain rfl : m' = m := by
        rw [htail.1] at hm
        exact Option.some.inj hm
      exact alive_of_ownOf s htail.2.1
  obtain ⟨R1, R2, R3, R4, R5, R6, R7, R8, R9, R10, R11⟩ := insert_at_reads s L v hL hfr hc
  have hLnotin : L ∉ segLinks .head l₁ := by
    rw [hLdef]
    exact endLink_not_mem_segLinks hnd₁ (fun q hq => LinkId.noConfusion hq)
  -- prefix framing facts
  have hlink₁ : ∀ M ∈ segLinks LinkId.head l₁,
      linkGet (insert_at s L v).1 M = linkGet s M := by
    intro M hM
    have hML : M ≠ L := fun hh => hLnotin (hh ▸ hM)
    have hMid : M ≠ .nextOf s.fresh := by
      rcases segLinks_sub hM with rfl | ⟨n, hn, rfl⟩
      · exact fun hh => LinkId.noConfusion hh
      · obtain ⟨nd, hnd'⟩ := halive₁ n hn
        have := alive_lt_fresh hfr hnd'
        intro hh
        obtain rfl : n = s.fresh := by injection hh
        omega
    exact R10 M hML hMid
  have hown₁ : ∀ n ∈ l₁, ownOf (insert_at s L v).1 n = ownOf s n := by
    intro n hn
    obtain ⟨nd, hnd'⟩ := halive₁ n hn
    have hlt := alive_lt_fresh hfr hnd'
    refine R9 n (by omega) ?_
    intro hsome
    rcases l₂ with _ | ⟨m', l₂'⟩
    · rw [chainL_nil] at htail
      rw [htail] at hsome
      exact Option.noConfusion hsome
    · rw [chainL_cons] at htail
      obtain rfl : m' = n := by
        rw [htail.1] at hsome
        exact Option.some.inj hsome
      exact hdisj hn (by simp)
  have hseg' : Seg (insert_at s L v).1 .head l₁ := seg_frame hseg hlink₁ hown₁
  -- the new node, then the old tail
  have htail' : ChainL (insert_at s L v).1 L (s.fresh :: l₂) := by
    rw [chainL_cons]
    refine ⟨R3, R6, ?_⟩
    rcases l₂ with _ | ⟨m', l₂'⟩
    · rw [chainL_nil, R4]
      rw [chainL_nil] at htail
      exact htail
    · rw [chainL_cons] at htail
      obtain ⟨ht1, ht2, ht3⟩ := htail
      rw [chainL_cons]
      refine ⟨by rw [R4, ht1], R7 m' ht1, ?_⟩
      refine chainL_frame ht3 ?_ ?_ ?_
      · intro M hM
        have hform : ∃ q ∈ m' :: l₂', M = LinkId.nextOf q := by
          rcases segLinks_sub hM with rfl | ⟨q, hq, rfl⟩
          · exact ⟨m', by simp⟩
          · exact ⟨q, by simp [hq], rfl⟩
        obtain ⟨q, hq, rfl⟩ := hform
        obtain ⟨nd, hnd'⟩ := halive₂ q hq
        have hlt := alive_lt_fresh hfr hnd'
        refine R10 _ ?_ ?_
        · intro hh
          rcases endLink_form LinkId.head l₁ with he | ⟨p, hp, he⟩
          · rw [hLdef, he] at hh
            exact LinkId.noConfusion hh
          · rw [hLdef, he] at hh
            obtain rfl : q = p := by injection hh
            exact hdisj hp hq
        · intro hh
          obtain rfl : q = s.fresh := by injection hh
          omega
      · intro n hn
        obtain ⟨nd, hnd'⟩ := halive₂ n (by simp [hn])
        have hlt := alive_lt_fresh hfr hnd'
        refine R9 n (by omega) ?_
        intro hsome
        rw [ht1] at hsome
        obtain rfl : m' = n := Option.some.inj hsome
        exact (List.nodup_cons.mp hnd₂).1 hn
      · have hform : ∃ q ∈ m' :: l₂',
            endLink (LinkId.nextOf m') l₂' = LinkId.nextOf q := by
          rcases endLink_form (LinkId.nextOf m') l₂' with he | ⟨q, hq, he⟩
          · exact ⟨m', by simp, he⟩
          · exact ⟨q, by simp [hq], he⟩
        obtain ⟨q, hq, hform'⟩ := hform
        rw [hform']
        obtain ⟨nd, hnd'⟩ := halive₂ q hq
        have hlt := alive_lt_fresh hfr hnd'
        refine R10 _ ?_ ?_
        · intro hh
          rcases endLink_form LinkId.head l₁ with he | ⟨p, hp, he⟩
          · rw [hLdef, he] at hh
            exact LinkId.noConfusion hh
          · rw [hLdef, he] at hh
            obtain rfl : q = p := by injection hh
            exact hdisj hp hq
        · intro hh
          obtain rfl : q = s.fresh := by injection hh
          omega
  refine ⟨⟨?_, ?_⟩, R1, R5, R8, R2⟩
  · rw [chainL_append]
    exact ⟨hseg', htail'⟩
  · intro n hn
    rw [R2] at hn
    have hne : n ≠ s.fresh := by omega
    have h1 : s.nodes n = none := hfr n (by omega)
    have h2 := R11 n hne
    rw [h1] at h2
    simpa using h2

/-! ## Read-characterization of `swap_places` on adjacent nodes -/

@[simp]
theorem valOf_swap_places (s : State T) (a b m : Nat) :
    valOf (swap_places s a b) m = valOf s m := by
  simp [swap_places]

@[simp]
theorem nodesIsSome_swap_places (s : State T) (a b m : Nat) :
    ((swap_places s a b).nodes m).isSome = (s.nodes m).isSome := by
  simp [swap_places]

@[simp]
theorem fresh_swap_places (s : State T) (a b : Nat) :
    (swap_places s a b).fresh = s.fresh := by
  simp [swap_places]

theorem linkGet_next_some_alive {s : State T} {p x : Nat}
    (h : linkGet s (.nextOf p) = some x) : ∃ nd, s.nodes p = some nd := by
  simp only [linkGet] at h
  cases hp : s.nodes p <;> rw [hp] at h
  · exact Option.noConfusion h
  · exact ⟨_, rfl⟩

theorem isSome_of_nodes_eq {s : State T} {n : Nat} {nd : Node T}
    (h : s.nodes n = some nd) : (s.nodes n).isSome = true := by
  rw [h]; rfl

theorem exists_of_isSome {s : State T} {n : Nat}
    (h : (s.nodes n).isSome = true) : ∃ nd, s.nodes n = some nd :=
  Option.isSome_iff_exists.mp h

theorem swap_adj_reads (s : State T) {d b : Nat} {M : LinkId}
    (hdb : d ≠ b)
    (hownd : ownOf s d = some M)
    (hMd : linkGet s M = some d)
    (hdnext : linkGet s (.nextOf d) = some b)
    (hownb : ownOf s b = some (.nextOf d))
    (hMne1 : M ≠ .nextOf d)
    (hMne2 : M ≠ .nextOf b)
    (hcb : ∀ c, linkGet s (.nextOf b) = some c →
      (∃ nd, s.nodes c = some nd) ∧ c ≠ d ∧ c ≠ b) :
    linkGet (swap_places s d b) M = some b
    ∧ linkGet (swap_places s d b) (.nextOf b) = some d
    ∧ linkGet (swap_places s d b) (.nextOf d) = linkGet s (.nextOf b)
    ∧ (∀ M', M' ≠ M → M' ≠ .nextOf d → M' ≠ .nextOf b →
        linkGet (swap_places s d b) M' = linkGet s M')
    ∧ ownOf (swap_places s d b) b = some M
    ∧ ownOf (swap_places s d b) d = some (.nextOf b)
    ∧ (∀ c, linkGet s (.nextOf b) = some c →
        ownOf (swap_places s d b) c = some (.nextOf d))
    ∧ (∀ m, m ≠ d → m ≠ b → linkGet s (.nextOf b) ≠ some m →
        ownOf (swap_places s d b) m = ownOf s m) := by
  obtain ⟨dd, hd⟩ := alive_of_ownOf s hownd
  obtain ⟨bd, hb⟩ := alive_of_ownOf s hownb
  simp only [swap_places]
  rw [owningD_eq s hownd, owningD_eq s hownb, hMd, hdnext]
  set s1e := setLink (setLink s M (some b)) (.nextOf d) (some d) with hs1
  -- stage 1: owning-link contents swapped
  have h1iso : ∀ m, (s1e.nodes m).isSome = (s.nodes m).isSome := by
    intro m; rw [hs1]; simp
  have h1d : ∃ nd, s1e.nodes d = some nd :=
    exists_of_isSome (by rw [h1iso d]; exact isSome_of_nodes_eq hd)
  have h1b : ∃ nd, s1e.nodes b = some nd :=
    exists_of_isSome (by rw [h1iso b]; exact isSome_of_nodes_eq hb)
  have h1nd : linkGet s1e (.nextOf d) = some d := by
    obtain ⟨nd0, hnd0⟩ : ∃ nd0, (setLink s M (some b)).nodes d = some nd0 :=
      exists_of_isSome (by rw [nodesIsSome_setLink]; exact isSome_of_nodes_eq hd)
    rw [hs1]
    exact linkGet_setLink_next _ _ hnd0
  have h1M : linkGet s1e M = some b := by
    rw [hs1, linkGet_setLink_ne _ _ hMne1]
    cases M with
    | head => exact linkGet_setLink_head s _
    | nextOf p =>
      obtain ⟨pnd, hpnd⟩ := linkGet_next_some_alive hMd
      exact linkGet_setLink_next s _ hpnd
  have h1nb : linkGet s1e (.nextOf b) = linkGet s (.nextOf b) := by
    rw [hs1, linkGet_setLink_ne _ _ (fun hh => hdb (LinkId.nextOf.inj hh).symm),
      linkGet_setLink_ne _ _ (fun hh => hMne2 hh.symm)]
  have h1other : ∀ M', M' ≠ M → M' ≠ .nextOf d → linkGet s1e M' = linkGet s M' := by
    intro M' hM1 hM2
    rw [hs1, linkGet_setLink_ne _ _ hM2, linkGet_setLink_ne _ _ hM1]
  have h1own : ∀ m, ownOf s1e m = ownOf s m := by
    intro m; rw [hs1]; simp
  rw [h1nd, h1nb]
  set s2e := setLink (setLink s1e (.nextOf d) (linkGet s (.nextOf b))) (.nextOf b) (some d)
    with hs2
  -- stage 2: forward-link contents swapped
  have h2iso : ∀ m, (s2e.nodes m).isSome = (s.nodes m).isSome := by
    intro m; rw [hs2]; simp [h1iso]
  have h2b : ∃ nd, s2e.nodes b = some nd :=
    exists_of_isSome (by rw [h2iso b]; exact isSome_of_nodes_eq hb)
  have h2nb : linkGet s2e (.nextOf b) = some d := by
    obtain ⟨nd0, hnd0⟩ : ∃ nd0, (setLink s1e (.nextOf d) (linkGet s (.nextOf b))).nodes b
        = some nd0 :=
      exists_of_isSome (by rw [nodesIsSome_setLink, h1iso b]; exact isSome_of_nodes_eq hb)
    rw [hs2]
    exact linkGet_setLink_next _ _ hnd0
  have h2nd : linkGet s2e (.nextOf d) = linkGet s (.nextOf b) := by
    rw [hs2, linkGet_setLink_ne _ _ (fun hh => hdb (LinkId.nextOf.inj hh))]
    obtain ⟨nd1, hnd1⟩ := h1d
    exact linkGet_setLink_next _ _ hnd1
  have h2M : linkGet s2e M = some b := by
    rw [hs2, linkGet_setLink_ne _ _ hMne2, linkGet_setLink_ne _ _ hMne1, h1M]
  have h2other : ∀ M', M' ≠ M → M' ≠ .nextOf d → M' ≠ .nextOf b →
      linkGet s2e M' = linkGet s M' := by
    intro M' hM1 hM2 hM3
    rw [hs2, linkGet_setLink_ne _ _ hM3, linkGet_setLink_ne _ _ hM2, h1other M' hM1 hM2]
  have h2own : ∀ m, ownOf s2e m = ownOf s m := by
    intro m; rw [hs2]; simp [h1own]
  -- stage 3: first fixup (reads `d`'s stale back-link, repairs `b`)
  have h2ownd : owningD s2e d = M := owningD_eq s2e (by rw [h2own d]; exact hownd)
  rw [h2ownd]
  have hfix1 : fixup_owning_link s2e M = setOwning s2e b M := by
    unfold fixup_owning_link
    rw [h2M]
  rw [hfix1]
  set s3e := setOwning s2e b M with hs3
  have h3iso : ∀ m, (s3e.nodes m).isSome = (s.nodes m).isSome := by
    intro m; rw [hs3]; simp [h2iso]
  have h3b : ∃ nd, s3e.nodes b = some nd :=
    exists_of_isSome (by rw [h3iso b]; exact isSome_of_nodes_eq hb)
  have h3ownb : ownOf s3e b = some M := by
    obtain ⟨nd2, hnd2⟩ := h2b
    rw [hs3]
    exact ownOf_setOwning_self s2e M hnd2
  have h3own_ne : ∀ m, m ≠ b → ownOf s3e m = ownOf s m := by
    intro m hm
    rw [hs3, ownOf_setOwning_ne s2e M hm, h2own m]
  have h3link : ∀ M', linkGet s3e M' = linkGet s2e M' := by
    intro M'; rw [hs3]; simp
  -- stage 4: second fixup (now reads `b`'s repaired back-link, no-op)
  have h3owndb : owningD s3e b = M := owningD_eq s3e h3ownb
  rw [h3owndb]
  have hfix2 : fixup_owning_link s3e M = setOwning s3e b M := by
    unfold fixup_owning_link
    rw [h3link M, h2M]
  rw [hfix2]
  set s4e := setOwning s3e b M with hs4
  have h4iso : ∀ m, (s4e.nodes m).isSome = (s.nodes m).isSome := by
    intro m; rw [hs4]; simp [h3iso]
  have h4ownb : ownOf s4e b = some M := by
    obtain ⟨nd3, hnd3⟩ := h3b
    rw [hs4]
    exact ownOf_setOwning_self s3e M hnd3
  have h4own_ne : ∀ m, m ≠ b → ownOf s4e m = ownOf s m := by
    intro m hm
    rw [hs4, ownOf_setOwning_ne s3e M hm, h3own_ne m hm]
  have h4link : ∀ M', linkGet s4e M' = linkGet s2e M' := by
    intro M'; rw [hs4]; simp [h3link]
  -- stage 5: third fixup (repairs the node that now follows `d`, if any)
  rcases hcbv : linkGet s (.nextOf b) with _ | c
  · have hfix3 : fixup_owning_link s4e (.nextOf d) = s4e := by
      apply fixup_of_none
      rw [h4link, h2nd, hcbv]
    rw [hfix3]
    -- stage 6: last fixup (repairs `d` itself)
    have hfix4 : fixup_owning_link s4e (.nextOf b) = setOwning s4e d (.nextOf b) := by
      unfold fixup_owning_link
      rw [h4link, h2nb]
    rw [hfix4]
    obtain ⟨nd4, hnd4⟩ : ∃ nd4, s4e.nodes d = some nd4 :=
      exists_of_isSome (by rw [h4iso d]; exact isSome_of_nodes_eq hd)
    refine ⟨?_, ?_, ?_, ?_, ?_, ?_, ?_, ?_⟩
    · rw [linkGet_setOwning, h4link, h2M]
    · rw [linkGet_setOwning, h4link, h2nb]
    · rw [linkGet_setOwning, h4link, h2nd]
      exact hcbv
    · intro M' hM1 hM2 hM3
      rw [linkGet_setOwning, h4link, h2other M' hM1 hM2 hM3]
    · rw [ownOf_setOwning_ne s4e _ (fun hh => hdb hh.symm), h4ownb]
    · exact ownOf_setOwning_self s4e _ hnd4
    · intro c hc
      exact Option.noConfusion hc
    · intro m hm1 hm2 _
      rw [ownOf_setOwning_ne s4e _ hm1, h4own_ne m hm2]
  · obtain ⟨⟨cnd, hcnd⟩, hcd, hcbne⟩ := hcb c hcbv
    have hfix3 : fixup_owning_link s4e (.nextOf d) = setOwning s4e c (.nextOf d) := by
      unfold fixup_owning_link
      rw [h4link, h2nd, hcbv]
    rw [hfix3]
    set s5e := setOwning s4e c (.nextOf d) with hs5
    have h5iso : ∀ m, (s5e.nodes m).isSome = (s.nodes m).isSome := by
      intro m; rw [hs5]; simp [h4iso]
    have h5ownc : ownOf s5e c = some (.nextOf d) := by
      obtain ⟨nd5, hnd5⟩ : ∃ nd5, s4e.nodes c = some nd5 :=
        exists_of_isSome (by rw [h4iso c]; exact isSome_of_nodes_eq hcnd)
      rw [hs5]
      exact ownOf_setOwning_self s4e _ hnd5
    have h5own_ne : ∀ m, m ≠ c → ownOf s5e m = ownOf s4e m := by
      intro m hm
      rw [hs5, ownOf_setOwning_ne s4e _ hm]
    have h5link : ∀ M', linkGet s5e M' = linkGet s2e M' := by
      intro M'; rw [hs5]; simp [h4link]
    have hfix4 : fixup_owning_link s5e (.nextOf b) = setOwning s5e d (.nextOf b) := by
      unfold fixup_owning_link
      rw [h5link, h2nb]
    rw [hfix4]
    obtain ⟨nd6, hnd6⟩ : ∃ nd6, s5e.nodes d = some nd6 :=
      exists_of_isSome (by rw [h5iso d]; exact isSome_of_nodes_eq hd)
    refine ⟨?_, ?_, ?_, ?_, ?_, ?_, ?_, ?_⟩
    · rw [linkGet_setOwning, h5link, h2M]
    · rw [linkGet_setOwning, h5link, h2nb]
    · rw [linkGet_setOwning, h5link, h2nd, hcbv]
    · intro M' hM1 hM2 hM3
      rw [linkGet_setOwning, h5link, h2other M' hM1 hM2 hM3]
    · rw [ownOf_setOwning_ne s5e _ (fun hh => hdb hh.symm),
        h5own_ne b (fun hh => hcbne hh.symm), h4ownb]
    · exact ownOf_setOwning_self s5e _ hnd6
    · intro c' hc'
      obtain rfl := Option.some.inj hc'
      rw [ownOf_setOwning_ne _ _ hcd, h5ownc]
    · intro m hm1 hm2 hm3
      have hmc : m ≠ c := by
        intro hh
        exact hm3 (by rw [hh])
      rw [ownOf_setOwning_ne s5e _ hm1, h5own_ne m hmc, h4own_ne m hm2]

theorem swap_adj_chain {s : State T} {l₁ l₂ : List Nat} {d b : Nat}
    (h : WFS s (l₁ ++ d :: b :: l₂)) :
    WFS (swap_places s d b) (l₁ ++ b :: d :: l₂) := by
  obtain ⟨hch, hfr⟩ := h
  have hnd : (l₁ ++ d :: b :: l₂).Nodup := chainL_nodup hch
  have hnd₁ : l₁.Nodup := hnd.of_append_left
  have hndr : (d :: b :: l₂).Nodup := hnd.of_append_right
  have hdisj : l₁.Disjoint (d :: b :: l₂) := List.disjoint_of_nodup_append hnd
  have hdb : d ≠ b := by
    intro hh
    exact (List.nodup_cons.mp hndr).1 (by rw [hh]; simp)
  have hdnl : d ∉ l₂ := fun hh => (List.nodup_cons.mp hndr).1 (by simp [hh])
  have hbnl : b ∉ l₂ := (List.nodup_cons.mp (List.nodup_cons.mp hndr).2).1
  have hndl₂ : l₂.Nodup := (List.nodup_cons.mp (List.nodup_cons.mp hndr).2).2
  rw [chainL_append] at hch
  obtain ⟨hseg, htail⟩ := hch
  set M := endLink LinkId.head l₁ with hMdef
  rw [chainL_cons] at htail
  obtain ⟨hMd, hownd, htail1⟩ := htail
  rw [chainL_cons] at htail1
  obtain ⟨hdnext, hownb, htail2⟩ := htail1
  -- shape facts about the boundary link M
  have hMform : M = LinkId.head ∨ ∃ p ∈ l₁, M = LinkId.nextOf p := by
    rw [hMdef]
    exact endLink_form LinkId.head l₁
  have hMnoq : ∀ q, q ∈ d :: b :: l₂ → LinkId.nextOf q ≠ M := by
    intro q hqmem
    rcases hMform with hH | ⟨p, hp, hP⟩
    · rw [hH]
      exact fun hh => LinkId.noConfusion hh
    · rw [hP]
      intro hh
      obtain rfl : q = p := LinkId.nextOf.inj hh
      exact hdisj hp hqmem
  have hMne1 : M ≠ LinkId.nextOf d := fun hh => hMnoq d (by simp) hh.symm
  have hMne2 : M ≠ LinkId.nextOf b := fun hh => hMnoq b (by simp) hh.symm
  have hcb : ∀ c, linkGet s (.nextOf b) = some c →
      (∃ nd, s.nodes c = some nd) ∧ c ≠ d ∧ c ≠ b := by
    intro c hc
    rcases hl₂ : l₂ with _ | ⟨c', l₂'⟩
    · rw [hl₂, chainL_nil] at htail2
      rw [htail2] at hc
      exact Option.noConfusion hc
    · rw [hl₂, chainL_cons] at htail2
      obtain rfl : c' = c := by
        rw [htail2.1] at hc
        exact Option.some.inj hc
      refine ⟨alive_of_ownOf s htail2.2.1, ?_, ?_⟩
      · intro hh
        exact hdnl (by rw [← hh, hl₂]; simp)
      · intro hh
        exact hbnl (by rw [← hh, hl₂]; simp)
  obtain ⟨R1, R2, R3, R4, R5, R6, R7, R8⟩ :=
    swap_adj_reads s hdb hownd hMd hdnext hownb hMne1 hMne2 hcb
  have hMnotin : M ∉ segLinks LinkId.head l₁ := by
    rw [hMdef]
    exact endLink_not_mem_segLinks hnd₁ (fun q hq => LinkId.noConfusion hq)
  -- the prefix is untouched
  have hseg' : Seg (swap_places s d b) LinkId.head l₁ := by
    refine seg_frame hseg ?_ ?_
    · intro M' hM'
      refine R4 M' (fun hh => hMnotin (hh ▸ hM')) ?_ ?_
      · rcases segLinks_sub hM' with rfl | ⟨n, hn, rfl⟩
        · exact fun hh => LinkId.noConfusion hh
        · intro hh
          obtain rfl : n = d := by injection hh
          exact hdisj hn (by simp)
      · rcases segLinks_sub hM' with rfl | ⟨n, hn, rfl⟩
        · exact fun hh => LinkId.noConfusion hh
        · intro hh
          obtain rfl : n = b := by injection hh
          exact hdisj hn (by simp)
    · intro n hn
      refine R8 n (fun hh => hdisj hn (by simp [hh])) (fun hh => hdisj hn (by simp [hh])) ?_
      intro hh
      obtain ⟨_, hcd, _⟩ := hcb n hh
      rcases hl₂ : l₂ with _ | ⟨c', l₂'⟩
      · rw [hl₂, chainL_nil] at htail2
        rw [htail2] at hh
        exact Option.noConfusion hh
      · rw [hl₂, chainL_cons] at htail2
        obtain rfl : c' = n := by
          rw [htail2.1] at hh
          exact Option.some.inj hh
        exact hdisj hn (by rw [hl₂]; simp)
  -- the swapped pair and the tail
  have htail' : ChainL (swap_places s d b) M (b :: d :: l₂) := by
    rw [chainL_cons]
    refine ⟨R1, R5, ?_⟩
    rw [chainL_cons]
    refine ⟨R2, R6, ?_⟩
    rcases hl₂ : l₂ with _ | ⟨c, l₂'⟩
    · rw [chainL_nil, R3]
      rw [hl₂, chainL_nil] at htail2
      exact htail2
    · rw [hl₂, chainL_cons] at htail2
      obtain ⟨ht1, ht2, ht3⟩ := htail2
      rw [chainL_cons]
      refine ⟨by rw [R3, ht1], R7 c ht1, ?_⟩
      have hcl₂ : c ∉ l₂' := by
        have : l₂.Nodup := hndl₂
        rw [hl₂] at this
        exact (List.nodup_cons.mp this).1
      refine chainL_frame ht3 ?_ ?_ ?_
      · intro M' hM'
        have hform : ∃ q ∈ c :: l₂', M' = LinkId.nextOf q := by
          rcases segLinks_sub hM' with rfl | ⟨q, hq, rfl⟩
          · exact ⟨c, by simp⟩
          · exact ⟨q, by simp [hq], rfl⟩
        obtain ⟨q, hq, rfl⟩ := hform
        have hql₂ : q ∈ l₂ := by rw [hl₂]; exact hq
        refine R4 _ (hMnoq q (by simp [hql₂])) ?_ ?_
        · intro hh
          obtain rfl : q = d := by injection hh
          exact hdnl hql₂
        · intro hh
          obtain rfl : q = b := by injection hh
          exact hbnl hql₂
      · intro n hn
        have hnl₂ : n ∈ l₂ := by rw [hl₂]; simp [hn]
        refine R8 n (fun hh => hdnl (hh ▸ hnl₂)) (fun hh => hbnl (hh ▸ hnl₂)) ?_
        intro hh
        rw [ht1] at hh
        obtain rfl : c = n := Option.some.inj hh
        exact hcl₂ hn
      · have hform : ∃ q ∈ c :: l₂', endLink (LinkId.nextOf c) l₂' = LinkId.nextOf q := by
          rcases endLink_form (LinkId.nextOf c) l₂' with he | ⟨q, hq, he⟩
          · exact ⟨c, by simp, he⟩
          · exact ⟨q, by simp [hq], he⟩
        obtain ⟨q, hq, hform'⟩ := hform
        rw [hform']
        have hql₂ : q ∈ l₂ := by rw [hl₂]; exact hq
        refine R4 _ (hMnoq q (by simp [hql₂])) ?_ ?_
        · intro hh
          obtain rfl : q = d := by injection hh
          exact hdnl hql₂
        · intro hh
          obtain rfl : q = b := by injection hh
          exact hbnl hql₂
  refine ⟨?_, ?_⟩
  · rw [chainL_append]
    exact ⟨hseg', htail'⟩
  · intro n hn
    rw [fresh_swap_places] at hn
    have h1 : s.nodes n = none := hfr n hn
    have h2 := nodesIsSome_swap_places s d b n
    rcases ho : (swap_places s d b).nodes n with _ | nd
    · rfl
    · rw [ho, h1] at h2
      simp at h2

/-! ## Read-characterization of `unlink` -/

/-- The heap after the temporary owning link inside `unlink` goes out of
scope: the unlinked node's box is deallocated. -/
def freeNode (s : State T) (n : Nat) : State T :=
  { s with nodes := fun m => if m = n then none else s.nodes m }

theorem unlink_def (s : State T) (n : Nat) :
    unlink s n =
      ((s.nodes n).bind Node.val,
        freeNode
          (fixup_owning_link
            (setLink (setLink s (owningD s n) (linkGet s (.nextOf n))) (.nextOf n) none)
            (owningD s n))
          n) := rfl

@[simp]
theorem fresh_freeNode (s : State T) (n : Nat) : (freeNode s n).fresh = s.fresh := rfl

theorem nodes_freeNode_self (s : State T) (n : Nat) : (freeNode s n).nodes n = none := by
  simp [freeNode]

theorem nodes_freeNode_ne (s : State T) {n m : Nat} (h : m ≠ n) :
    (freeNode s n).nodes m = s.nodes m := by
  simp [freeNode, h]

theorem linkGet_freeNode_ne (s : State T) {n : Nat} {M : LinkId} (h : M ≠ .nextOf n) :
    linkGet (freeNode s n) M = linkGet s M := by
  cases M with
  | head => rfl
  | nextOf q =>
    have hq : q ≠ n := fun hh => h (by rw [hh])
    simp [linkGet, nodes_freeNode_ne s hq]

theorem valOf_freeNode_ne (s : State T) {n m : Nat} (h : m ≠ n) :
    valOf (freeNode s n) m = valOf s m := by
  simp [valOf, nodes_freeNode_ne s h]

theorem ownOf_freeNode_ne (s : State T) {n m : Nat} (h : m ≠ n) :
    ownOf (freeNode s n) m = ownOf s m := by
  simp [ownOf, nodes_freeNode_ne s h]

theorem unlink_reads (s : State T) {n : Nat} {L : LinkId}
    (hown : ownOf s n = some L)
    (hLn : linkGet s L = some n)
    (hLne : L ≠ .nextOf n)
    (hnx : ∀ m, linkGet s (.nextOf n) = some m →
      (∃ nd, s.nodes m = some nd) ∧ m ≠ n) :
    (unlink s n).1 = valOf s n
    ∧ (unlink s n).2.fresh = s.fresh
    ∧ (unlink s n).2.nodes n = none
    ∧ linkGet (unlink s n).2 L = linkGet s (.nextOf n)
    ∧ (∀ m, linkGet s (.nextOf n) = some m → ownOf (unlink s n).2 m = some L)
    ∧ (∀ M', M' ≠ L → M' ≠ .nextOf n → linkGet (unlink s n).2 M' = linkGet s M')
    ∧ (∀ m, m ≠ n → linkGet s (.nextOf n) ≠ some m → ownOf (unlink s n).2 m = ownOf s m)
    ∧ (∀ m, m ≠ n → valOf (unlink s n).2 m = valOf s m)
    ∧ (∀ m, m ≠ n → ((unlink s n).2.nodes m).isSome = (s.nodes m).isSome) := by
  obtain ⟨nnd, hn⟩ := alive_of_ownOf s hown
  rw [unlink_def, owningD_eq s hown]
  set s1e := setLink s L (linkGet s (.nextOf n)) with hs1
  have h1iso : ∀ m, (s1e.nodes m).isSome = (s.nodes m).isSome := by
    intro m; rw [hs1]; simp
  have h1L : linkGet s1e L = linkGet s (.nextOf n) := by
    cases L with
    | head => rw [hs1]; exact linkGet_setLink_head s _
    | nextOf p =>
      obtain ⟨pnd, hpnd⟩ := linkGet_next_some_alive hLn
      rw [hs1]; exact linkGet_setLink_next s _ hpnd
  have h1nn : linkGet s1e (.nextOf n) = linkGet s (.nextOf n) := by
    rw [hs1, linkGet_setLink_ne s _ (fun hh => hLne hh.symm)]
  have h1other : ∀ M', M' ≠ L → linkGet s1e M' = linkGet s M' := by
    intro M' hM'
    rw [hs1, linkGet_setLink_ne s _ hM']
  have h1own : ∀ m, ownOf s1e m = ownOf s m := by
    intro m; rw [hs1]; simp
  set s2e := setLink s1e (.nextOf n) none with hs2
  have h2iso : ∀ m, (s2e.nodes m).isSome = (s.nodes m).isSome := by
    intro m; rw [hs2]; simp [h1iso]
  have h2nn : linkGet s2e (.nextOf n) = none := by
    obtain ⟨nd1, hnd1⟩ : ∃ nd1, s1e.nodes n = some nd1 :=
      exists_of_isSome (by rw [h1iso n]; exact isSome_of_nodes_eq hn)
    rw [hs2]; exact linkGet_setLink_next s1e _ hnd1
  have h2L : linkGet s2e L = linkGet s (.nextOf n) := by
    rw [hs2, linkGet_setLink_ne s1e _ hLne, h1L]
  have h2other : ∀ M', M' ≠ L → M' ≠ .nextOf n → linkGet s2e M' = linkGet s M' := by
    intro M' hM1 hM2
    rw [hs2, linkGet_setLink_ne s1e _ hM2, h1other M' hM1]
  have h2own : ∀ m, ownOf s2e m = ownOf s m := by
    intro m; rw [hs2]; simp [h1own]
  rcases hnxv : linkGet s (.nextOf n) with _ | m
  · have hfix : fixup_owning_link s2e L = s2e := by
      apply fixup_of_none
      rw [h2L, hnxv]
    rw [hfix]
    refine ⟨rfl, by rw [hs2, hs1]; simp, nodes_freeNode_self s2e n, ?_, ?_, ?_, ?_, ?_, ?_⟩
    · rw [linkGet_freeNode_ne s2e hLne, h2L, hnxv]
    · intro m hm
      exact Option.noConfusion hm
    · intro M' hM1 hM2
      rw [linkGet_freeNode_ne s2e hM2, h2other M' hM1 hM2]
    · intro m hm _
      rw [ownOf_freeNode_ne s2e hm, h2own m]
    · intro m hm
      rw [valOf_freeNode_ne s2e hm, hs2, valOf_setLink, hs1, valOf_setLink]
    · intro m hm
      rw [nodes_freeNode_ne s2e hm, h2iso m]
  · obtain ⟨⟨mnd, hmnd⟩, hmn⟩ := hnx m hnxv
    have hfix : fixup_owning_link s2e L = setOwning s2e m L := by
      unfold fixup_owning_link
      rw [h2L, hnxv]
    rw [hfix]
    obtain ⟨mnd2, hmnd2⟩ : ∃ mnd2, s2e.nodes m = some mnd2 :=
      exists_of_isSome (by rw [h2iso m]; exact isSome_of_nodes_eq hmnd)
    refine ⟨rfl, by rw [hs2, hs1]; simp, ?_, ?_, ?_, ?_, ?_, ?_, ?_⟩
    · exact nodes_freeNode_self _ n
    · rw [linkGet_freeNode_ne _ hLne, linkGet_setOwning, h2L, hnxv]
    · intro m' hm'
      obtain rfl : m = m' := Option.some.inj hm'
      rw [ownOf_freeNode_ne _ hmn, ownOf_setOwning_self s2e L hmnd2]
    · intro M' hM1 hM2
      rw [linkGet_freeNode_ne _ hM2, linkGet_setOwning, h2other M' hM1 hM2]
    · intro m' hm1 hm2
      have hm'm : m' ≠ m := by
        intro hh
        exact hm2 (by rw [hh])
      rw [ownOf_freeNode_ne _ hm1, ownOf_setOwning_ne s2e _ hm'm, h2own m']
    · intro m' hm'
      rw [valOf_freeNode_ne _ hm', valOf_setOwning, hs2, valOf_setLink, hs1, valOf_setLink]
    · intro m' hm'
      rw [nodes_freeNode_ne _ hm', nodesIsSome_setOwning, h2iso m']

theorem unlink_chain {s : State T} {l₁ l₂ : List Nat} {n : Nat}
    (h : WFS s (l₁ ++ n :: l₂)) :
    (unlink s n).1 = valOf s n
    ∧ WFS (unlink s n).2 (l₁ ++ l₂)
    ∧ (unlink s n).2.nodes n = none
    ∧ (∀ m, m ≠ n → valOf (unlink s n).2 m = valOf s m)
    ∧ (unlink s n).2.fresh = s.fresh := by
  obtain ⟨hch, hfr⟩ := h
  have hnd : (l₁ ++ n :: l₂).Nodup := chainL_nodup hch
  have hnd₁ : l₁.Nodup := hnd.of_append_left
  have hndr : (n :: l₂).Nodup := hnd.of_append_right
  have hdisj : l₁.Disjoint (n :: l₂) := List.disjoint_of_nodup_append hnd
  have hnnl : n ∉ l₂ := (List.nodup_cons.mp hndr).1
  have hndl₂ : l₂.Nodup := (List.nodup_cons.mp hndr).2
  rw [chainL_append] at hch
  obtain ⟨hseg, htail⟩ := hch
  set M := endLink LinkId.head l₁ with hMdef
  rw [chainL_cons] at htail
  obtain ⟨hMn, hown, htail2⟩ := htail
  have hMform : M = LinkId.head ∨ ∃ p ∈ l₁, M = LinkId.nextOf p := by
    rw [hMdef]
    exact endLink_form LinkId.head l₁
  have hMnoq : ∀ q, q ∈ n :: l₂ → LinkId.nextOf q ≠ M := by
    intro q hqmem
    rcases hMform with hH | ⟨p, hp, hP⟩
    · rw [hH]
      exact fun hh => LinkId.noConfusion hh
    · rw [hP]
      intro hh
      obtain rfl : q = p := LinkId.nextOf.inj hh
      exact hdisj hp hqmem
  have hLne : M ≠ LinkId.nextOf n := fun hh => hMnoq n (by simp) hh.symm
  have hnx : ∀ m, linkGet s (.nextOf n) = some m →
      (∃ nd, s.nodes m = some nd) ∧ m ≠ n := by
    intro m hm
    rcases hl₂ : l₂ with _ | ⟨m', l₂'⟩
    · rw [hl₂, chainL_nil] at htail2
      rw [htail2] at hm
      exact Option.noConfusion hm
    · rw [hl₂, chainL_cons] at htail2
      obtain rfl : m' = m := by
        rw [htail2.1] at hm
        exact Option.some.inj hm
      refine ⟨alive_of_ownOf s htail2.2.1, ?_⟩
      intro hh
      exact hnnl (by rw [← hh, hl₂]; simp)
  obtain ⟨R1, R2, R3, R4, R5, R6, R7, R8, R9⟩ := unlink_reads s hown hMn hLne hnx
  have hMnotin : M ∉ segLinks LinkId.head l₁ := by
    rw [hMdef]
    exact endLink_not_mem_segLinks hnd₁ (fun q hq => LinkId.noConfusion hq)
  have hseg' : Seg (unlink s n).2 LinkId.head l₁ := by
    refine seg_frame hseg ?_ ?_
    · intro M' hM'
      refine R6 M' (fun hh => hMnotin (hh ▸ hM')) ?_
      rcases segLinks_sub hM' with rfl | ⟨q, hq, rfl⟩
      · exact fun hh => LinkId.noConfusion hh
      · intro hh
        obtain rfl : q = n := by injection hh
        exact hdisj hq (by simp)
    · intro q hq
      refine R7 q (fun hh => hdisj hq (by simp [hh])) ?_
      intro hh
      obtain ⟨_, hmn⟩ := hnx q hh
      rcases hl₂ : l₂ with _ | ⟨m', l₂'⟩
      · rw [hl₂, chainL_nil] at htail2
        rw [htail2] at hh
        exact Option.noConfusion hh
      · rw [hl₂, chainL_cons] at htail2
        obtain rfl : m' = q := by
          rw [htail2.1] at hh
          exact Option.some.inj hh
        exact hdisj hq (by rw [hl₂]; simp)
  have htail' : ChainL (unlink s n).2 M l₂ := by
    rcases hl₂ : l₂ with _ | ⟨m, l₂'⟩
    · rw [chainL_nil, R4]
      rw [hl₂, chainL_nil] at htail2
      exact htail2
    · rw [hl₂, chainL_cons] at htail2
      obtain ⟨ht1, ht2, ht3⟩ := htail2
      rw [chainL_cons]
      have hml₂ : m ∉ l₂' := by
        rw [hl₂] at hndl₂
        exact (List.nodup_cons.mp hndl₂).1
      refine ⟨by rw [R4, ht1], R5 m ht1, ?_⟩
      refine chainL_frame ht3 ?_ ?_ ?_
      · intro M' hM'
        have hform : ∃ q ∈ m :: l₂', M' = LinkId.nextOf q := by
          rcases segLinks_sub hM' with rfl | ⟨q, hq, rfl⟩
          · exact ⟨m, by simp⟩
          · exact ⟨q, by simp [hq], rfl⟩
        obtain ⟨q, hq, rfl⟩ := hform
        have hql₂ : q ∈ l₂ := by rw [hl₂]; exact hq
        refine R6 _ (hMnoq q (by simp [hql₂])) ?_
        intro hh
        obtain rfl : q = n := by injection hh
        exact hnnl hql₂
      · intro q hq
        have hql₂ : q ∈ l₂ := by rw [hl₂]; simp [hq]
        refine R7 q (fun hh => hnnl (hh ▸ hql₂)) ?_
        intro hh
        rw [ht1] at hh
        obtain rfl : m = q := Option.some.inj hh
        exact hml₂ hq
      · have hform : ∃ q ∈ m :: l₂', endLink (LinkId.nextOf m) l₂' = LinkId.nextOf q := by
          rcases endLink_form (LinkId.nextOf m) l₂' with he | ⟨q, hq, he⟩
          · exact ⟨m, by simp, he⟩
          · exact ⟨q, by simp [hq], he⟩
        obtain ⟨q, hq, hform'⟩ := hform
        rw [hform']
        have hql₂ : q ∈ l₂ := by rw [hl₂]; exact hq
        refine R6 _ (hMnoq q (by simp [hql₂])) ?_
        intro hh
        obtain rfl : q = n := by injection hh
        exact hnnl hql₂
  refine ⟨R1, ⟨?_, ?_⟩, R3, R8, R2⟩
  · rw [chainL_append]
    exact ⟨hseg', htail'⟩
  · intro q hq
    rw [R2] at hq
    rcases eq_or_ne q n with rfl | hqn
    · exact R3
    · have h1 : s.nodes q = none := hfr q hq
      have h2 := R9 q hqn
      rw [h1] at h2
      rcases ho : (unlink s n).2.nodes q with _ | nd
      · rfl
      · rw [ho] at h2
        simp at h2

/-! ## Behaviour of `Cursor::next` -/

theorem cursorNext_zero (s : State T) (d : Nat) : cursorNext 0 s d = none := rfl

theorem cursorNext_succ_end (s : State T) {d : Nat} (f : Nat)
    (h : linkGet s (.nextOf d) = none) :
    cursorNext (f + 1) s d = some (s, none) := by
  simp [cursorNext, h]

theorem cursorNext_succ_dead (s : State T) {d b : Nat} (f : Nat)
    (h1 : linkGet s (.nextOf d) = some b)
    (h2 : (swap_places s d b).nodes b = none) :
    cursorNext (f + 1) s d = none := by
  simp [cursorNext, h1, h2]

theorem cursorNext_succ_dummy (s : State T) {d b : Nat} {nd : Node T} (f : Nat)
    (h1 : linkGet s (.nextOf d) = some b)
    (h2 : (swap_places s d b).nodes b = some nd)
    (h3 : nd.val = none) :
    cursorNext (f + 1) s d = cursorNext f (swap_places s d b) d := by
  simp [cursorNext, h1, h2, h3]

theorem cursorNext_succ_val (s : State T) {d b : Nat} {nd : Node T} {v : T} (f : Nat)
    (h1 : linkGet s (.nextOf d) = some b)
    (h2 : (swap_places s d b).nodes b = some nd)
    (h3 : nd.val = some v) :
    cursorNext (f + 1) s d = some (swap_places s d b, some b) := by
  simp [cursorNext, h1, h2, h3]

theorem wfs_next_link {s : State T} {l₁ l₂ : List Nat} {d : Nat}
    (h : WFS s (l₁ ++ d :: l₂)) : linkGet s (.nextOf d) = l₂.head? := by
  obtain ⟨hch, _⟩ := h
  rw [chainL_append, chainL_cons] at hch
  obtain ⟨_, _, _, htail⟩ := hch
  rcases l₂ with _ | ⟨m, l₂'⟩
  · rw [chainL_nil] at htail
    rw [htail]
    rfl
  · rw [chainL_cons] at htail
    rw [htail.1]
    rfl

theorem wfs_alive {s : State T} {l : List Nat} (h : WFS s l) {n : Nat} (hn : n ∈ l) :
    ∃ nd, s.nodes n = some nd :=
  seg_alive h.1.1 hn

/-- Arbitrary-fuel invariant preservation: whenever `cursorNext` actually
returns (does not run out of fuel), the resulting state is again
well-formed, and no node's payload has changed. -/
theorem next_preserves : ∀ (f : Nat) {s : State T} {l₁ l₂ : List Nat} {d : Nat}
    {s' : State T} {r : Option Nat},
    WFS s (l₁ ++ d :: l₂) → valOf s d = none →
    cursorNext f s d = some (s', r) →
    ∃ l', WFS s' l' ∧ (∀ m, valOf s' m = valOf s m) ∧ s'.fresh = s.fresh := by
  intro f
  induction f with
  | zero =>
    intro s l₁ l₂ d s' r _ _ hcn
    exact absurd hcn (by simp [cursorNext])
  | succ f ih =>
    intro s l₁ l₂ d s' r hWF hdum hcn
    have hlg := wfs_next_link hWF
    rcases hl₂ : l₂ with _ | ⟨b, l₂'⟩
    · rw [hl₂] at hlg
      rw [cursorNext_succ_end s f hlg] at hcn
      obtain ⟨rfl, rfl⟩ : s = s' ∧ (none : Option Nat) = r := by
        have := Option.some.inj hcn
        exact ⟨congrArg Prod.fst this, congrArg Prod.snd this⟩
      exact ⟨l₁ ++ d :: l₂, hWF, fun m => rfl, rfl⟩
    · rw [hl₂] at hlg
      have hlg' : linkGet s (.nextOf d) = some b := hlg
      rw [hl₂] at hWF
      have hWF1 := swap_adj_chain hWF
      obtain ⟨bnd, hbnd⟩ := wfs_alive hWF1 (n := b) (by simp)
      rcases hv : bnd.val with _ | v
      · rw [cursorNext_succ_dummy s f hlg' hbnd hv] at hcn
        have hWF1' : WFS (swap_places s d b) ((l₁ ++ [b]) ++ d :: l₂') := by
          rw [List.append_assoc]
          exact hWF1
        have hdum1 : valOf (swap_places s d b) d = none := by
          rw [valOf_swap_places]
          exact hdum
        obtain ⟨l', hWF', hvals, hfresh⟩ := ih hWF1' hdum1 hcn
        refine ⟨l', hWF', ?_, ?_⟩
        · intro m
          rw [hvals m, valOf_swap_places]
        · rw [hfresh, fresh_swap_places]
      · rw [cursorNext_succ_val s f hlg' hbnd hv] at hcn
        obtain ⟨rfl, rfl⟩ : swap_places s d b = s' ∧ (some b : Option Nat) = r := by
          have := Option.some.inj hcn
          exact ⟨congrArg Prod.fst this, congrArg Prod.snd this⟩
        exact ⟨l₁ ++ b :: d :: l₂', hWF1, fun m => valOf_swap_places s d b m,
          fresh_swap_places s d b⟩

/-- Precise behaviour of `next` when only dummy nodes (other cursors'
sentinels) remain after the cursor's own sentinel: they are all swapped
past, and the call reports end of list. -/
theorem next_run_end : ∀ (ds : List Nat) (f : Nat) {s : State T} {l₁ : List Nat} {d : Nat},
    WFS s (l₁ ++ d :: ds) → valOf s d = none →
    (∀ q ∈ ds, valOf s q = none) →
    ds.length + 1 ≤ f →
    ∃ s', cursorNext f s d = some (s', none)
      ∧ WFS s' (l₁ ++ ds ++ [d])
      ∧ (∀ m, valOf s' m = valOf s m)
      ∧ s'.fresh = s.fresh := by
  intro ds
  induction ds with
  | nil =>
    intro f s l₁ d hWF hdum _ hf
    obtain ⟨f', rfl⟩ : ∃ f', f = f' + 1 := ⟨f - 1, by omega⟩
    have hlg : linkGet s (.nextOf d) = none := wfs_next_link hWF
    exact ⟨s, cursorNext_succ_end s f' hlg, by simpa using hWF, fun m => rfl, rfl⟩
  | cons b ds' ih =>
    intro f s l₁ d hWF hdum hds hf
    obtain ⟨f', rfl⟩ : ∃ f', f = f' + 1 := ⟨f - 1, by omega⟩
    have hlg : linkGet s (.nextOf d) = some b := by
      have := wfs_next_link hWF
      rw [this]
      rfl
    have hWF1 := swap_adj_chain hWF
    obtain ⟨bnd, hbnd⟩ := wfs_alive hWF1 (n := b) (by simp)
    have hv : bnd.val = none := by
      have h1 : valOf (swap_places s d b) b = valOf s b := valOf_swap_places s d b b
      have h2 : valOf s b = none := hds b (by simp)
      unfold valOf at h1 h2
      rw [hbnd] at h1
      simp at h1
      rw [h1]
      exact h2
    have hWF1' : WFS (swap_places s d b) ((l₁ ++ [b]) ++ d :: ds') := by
      rw [List.append_assoc]
      exact hWF1
    have hdum1 : valOf (swap_places s d b) d = none := by
      rw [valOf_swap_places]; exact hdum
    have hds1 : ∀ q ∈ ds', valOf (swap_places s d b) q = none := by
      intro q hq
      rw [valOf_swap_places]
      exact hds q (by simp [hq])
    obtain ⟨s', hcn, hWF', hvals, hfresh⟩ :=
      ih f' hWF1' hdum1 hds1 (by simp at hf ⊢; omega)
    refine ⟨s', ?_, ?_, ?_, ?_⟩
    · rw [cursorNext_succ_dummy s f' hlg hbnd hv]
      exact hcn
    · have : (l₁ ++ [b]) ++ ds' ++ [d] = l₁ ++ (b :: ds') ++ [d] := by simp
      rw [← this]
      exact hWF'
    · intro m
      rw [hvals m, valOf_swap_places]
    · rw [hfresh, fresh_swap_places]

/-- Precise behaviour of `next` when, after a run of foreign sentinels,
a value-bearing node follows: the sentinels and that node are swapped
past the cursor's own sentinel, and the node is returned. -/
theorem next_run_val : ∀ (ds : List Nat) (f : Nat) {s : State T} {l₁ t : List Nat}
    {d x : Nat} {v : T},
    WFS s (l₁ ++ d :: (ds ++ x :: t)) → valOf s d = none →
    (∀ q ∈ ds, valOf s q = none) → valOf s x = some v →
    ds.length + 1 ≤ f →
    ∃ s', cursorNext f s d = some (s', some x)
      ∧ WFS s' (l₁ ++ ds ++ x :: d :: t)
      ∧ (∀ m, valOf s' m = valOf s m)
      ∧ s'.fresh = s.fresh := by
  intro ds
  induction ds with
  | nil =>
    intro f s l₁ t d x v hWF hdum _ hx hf
    obtain ⟨f', rfl⟩ : ∃ f', f = f' + 1 := ⟨f - 1, by omega⟩
    have hlg : linkGet s (.nextOf d) = some x := by
      have := wfs_next_link hWF
      rw [this]
      rfl
    have hWF1 := swap_adj_chain hWF
    obtain ⟨xnd, hxnd⟩ := wfs_alive hWF1 (n := x) (by simp)
    have hv : xnd.val = some v := by
      have h1 : valOf (swap_places s d x) x = valOf s x := valOf_swap_places s d x x
      unfold valOf at h1
      rw [hxnd] at h1
      simp at h1
      unfold valOf at hx
      rw [h1]
      exact hx
    refine ⟨swap_places s d x, cursorNext_succ_val s f' hlg hxnd hv, by simpa using hWF1,
      fun m => valOf_swap_places s d x m, fresh_swap_places s d x⟩
  | cons b ds' ih =>
    intro f s l₁ t d x v hWF hdum hds hx hf
    obtain ⟨f', rfl⟩ : ∃ f', f = f' + 1 := ⟨f - 1, by omega⟩
    have hlg : linkGet s (.nextOf d) = some b := by
      have := wfs_next_link hWF
      rw [this]
      rfl
    have hWF0 : WFS s (l₁ ++ d :: b :: (ds' ++ x :: t)) := by simpa using hWF
    have hWF1 := swap_adj_chain hWF0
    obtain ⟨bnd, hbnd⟩ := wfs_alive hWF1 (n := b) (by simp)
    have hv : bnd.val = none := by
      have h1 : valOf (swap_places s d b) b = valOf s b := valOf_swap_places s d b b
      have h2 : valOf s b = none := hds b (by simp)
      unfold valOf at h1 h2
      rw [hbnd] at h1
      simp at h1
      rw [h1]
      exact h2
    have hWF1' : WFS (swap_places s d b) ((l₁ ++ [b]) ++ d :: (ds' ++ x :: t)) := by
      rw [List.append_assoc]
      exact hWF1
    have hdum1 : valOf (swap_places s d b) d = none := by
      rw [valOf_swap_places]; exact hdum
    have hds1 : ∀ q ∈ ds', valOf (swap_places s d b) q = none := by
      intro q hq
      rw [valOf_swap_places]
      exact hds q (by simp [hq])
    have hx1 : valOf (swap_places s d b) x = some v := by
      rw [valOf_swap_places]; exact hx
    obtain ⟨s', hcn, hWF', hvals, hfresh⟩ :=
      ih f' hWF1' hdum1 hds1 hx1 (by simp at hf ⊢; omega)
    refine ⟨s', ?_, ?_, ?_, ?_⟩
    · rw [cursorNext_succ_dummy s f' hlg hbnd hv]
      exact hcn
    · have : (l₁ ++ [b]) ++ ds' ++ x :: d :: t = l₁ ++ (b :: ds') ++ x :: d :: t := by simp
      rw [← this]
      exact hWF'
    · intro m
      rw [hvals m, valOf_swap_places]
    · rw [hfresh, fresh_swap_places]

/-! ## Draining a cursor -/

theorem drainAux_succ_of_end {s s' : State T} {d : Nat} {f : Nat}
    (h : cursorNext (f + 1) s d = some (s', none)) :
    drainAux (f + 1) s d = some (s', []) := by
  simp [drainAux, h]

theorem drainAux_succ_of_val {s s' s'' : State T} {d n : Nat} {f : Nat} {v : T}
    {vs : List T}
    (h1 : cursorNext (f + 1) s d = some (s', some n))
    (h2 : valOf s' n = some v)
    (h3 : drainAux f s' d = some (s'', vs)) :
    drainAux (f + 1) s d = some (s'', v :: vs) := by
  simp [drainAux, h1, h2, h3]

theorem split_dummies (s : State T) : ∀ (l : List Nat), ∃ ds rest, l = ds ++ rest ∧
    (∀ q ∈ ds, valOf s q = none) ∧
    (rest = [] ∨ ∃ x t, rest = x :: t ∧ valOf s x ≠ none) := by
  intro l
  induction l with
  | nil => exact ⟨[], [], rfl, by simp, .inl rfl⟩
  | cons x l ih =>
    rcases hvx : valOf s x with _ | v
    · obtain ⟨ds, rest, rfl, hds, hrest⟩ := ih
      refine ⟨x :: ds, rest, rfl, ?_, hrest⟩
      intro q hq
      rcases List.mem_cons.mp hq with rfl | hq'
      · exact hvx
      · exact hds q hq'
    · exact ⟨[], x :: l, rfl, by simp, .inr ⟨x, l, rfl, by rw [hvx]; simp⟩⟩

theorem filterMap_of_none {g : Nat → Option T} :
    ∀ {l : List Nat}, (∀ q ∈ l, g q = none) → l.filterMap g = [] := by
  intro l
  induction l with
  | nil => intro _; rfl
  | cons x l ih =>
    intro h
    rw [List.filterMap_cons, h x (by simp)]
    exact ih (fun q hq => h q (by simp [hq]))

/-- Fully draining a cursor whose sentinel sits at `d`: every value after
the sentinel is produced once, in list order (foreign sentinels are
skipped), and the sentinel ends up at the very end of the list. -/
theorem drain_run : ∀ (k : Nat) {l₂ : List Nat}, l₂.length ≤ k →
    ∀ (f : Nat) {s : State T} {l₁ : List Nat} {d : Nat},
    WFS s (l₁ ++ d :: l₂) → valOf s d = none → l₂.length + 1 ≤ f →
    ∃ s', drainAux f s d = some (s', l₂.filterMap (valOf s))
      ∧ WFS s' (l₁ ++ (l₂ ++ [d]))
      ∧ (∀ m, valOf s' m = valOf s m)
      ∧ s'.fresh = s.fresh := by
  intro k
  induction k with
  | zero =>
    intro l₂ hk f s l₁ d hWF hdum hf
    obtain rfl : l₂ = [] := List.length_eq_zero.mp (by omega)
    obtain ⟨f', rfl⟩ : ∃ f', f = f' + 1 := ⟨f - 1, by omega⟩
    obtain ⟨s', hcn, hWF', hvals, hfresh⟩ :=
      next_run_end [] (f' + 1) hWF hdum (by simp) (by simp)
    exact ⟨s', drainAux_succ_of_end hcn, by simpa using hWF', hvals, hfresh⟩
  | succ k ih =>
    intro l₂ hk f s l₁ d hWF hdum hf
    obtain ⟨ds, rest, rfl, hds, hrest⟩ := split_dummies s l₂
    obtain ⟨f', rfl⟩ : ∃ f', f = f' + 1 := ⟨f - 1, by omega⟩
    rcases hrest with rfl | ⟨x, t, rfl, hx⟩
    · have hWF0 : WFS s (l₁ ++ d :: ds) := by simpa using hWF
      obtain ⟨s', hcn, hWF', hvals, hfresh⟩ :=
        next_run_end ds (f' + 1) hWF0 hdum hds (by simp at hf ⊢; omega)
      refine ⟨s', ?_, ?_, hvals, hfresh⟩
      · rw [drainAux_succ_of_end hcn]
        have : List.filterMap (valOf s) (ds ++ []) = [] := by
          rw [List.append_nil]
          exact filterMap_of_none hds
        rw [this]
      · simpa using hWF'
    · obtain ⟨v, hv⟩ : ∃ v, valOf s x = some v := by
        rcases hvx : valOf s x with _ | v
        · exact absurd hvx hx
        · exact ⟨v, rfl⟩
      obtain ⟨s1, hcn, hWF1, hvals1, hfresh1⟩ :=
        next_run_val ds (f' + 1) hWF hdum hds hv (by simp at hf ⊢; omega)
      have hWF1' : WFS s1 ((l₁ ++ ds ++ [x]) ++ d :: t) := by
        have h0 : (l₁ ++ ds ++ [x]) ++ d :: t = l₁ ++ ds ++ x :: d :: t := by simp
        rw [h0]
        exact hWF1
      have hdum1 : valOf s1 d = none := by rw [hvals1 d]; exact hdum
      have hlen : ds.length + (t.length + 1) = (ds ++ x :: t).length := by simp
      obtain ⟨s2, hdr2, hWF2, hvals2, hfresh2⟩ :=
        @ih t (by simp at hk; omega) f' _ _ _ hWF1' hdum1 (by simp at hf; omega)
      have hx1 : valOf s1 x = some v := by rw [hvals1 x]; exact hv
      refine ⟨s2, ?_, ?_, ?_, ?_⟩
      · rw [drainAux_succ_of_val hcn hx1 hdr2]
        rw [List.filterMap_append, filterMap_of_none hds, List.filterMap_cons, hv]
        have : t.filterMap (valOf s1) = t.filterMap (valOf s) :=
          List.filterMap_congr (fun q _ => hvals1 q)
        rw [this]
        simp
      · have h0 : (l₁ ++ ds ++ [x]) ++ (t ++ [d]) = l₁ ++ ((ds ++ x :: t) ++ [d]) := by simp
        rw [← h0]
        exact hWF2
      · intro m
        rw [hvals2 m, hvals1 m]
      · rw [hfresh2, hfresh1]

/-! ## The empty list and `push` sequences -/

theorem wfs_empty (T : Type) : WFS (emptyState T) [] :=
  ⟨⟨trivial, rfl⟩, fun _ _ => rfl⟩

theorem endLink_nil (L : LinkId) : endLink L [] = L := rfl

theorem endLink_snoc (L : LinkId) (l : List Nat) (n : Nat) :
    endLink L (l ++ [n]) = .nextOf n := by
  rw [endLink_append]
  rfl

theorem wfs_own_at {s : State T} {l₁ l₂ : List Nat} {n : Nat}
    (h : WFS s (l₁ ++ n :: l₂)) : ownOf s n = some (endLink .head l₁) := by
  obtain ⟨hch, _⟩ := h
  rw [chainL_append, chainL_cons] at hch
  exact hch.2.2.1

theorem pushAll_chain : ∀ (vs : List T) {s : State T} {l : List Nat}, WFS s l →
    ∃ l', WFS (pushAll s vs) (l' ++ l)
      ∧ List.map (valOf (pushAll s vs)) l' = List.map some vs.reverse
      ∧ (∀ m, m < s.fresh → valOf (pushAll s vs) m = valOf s m)
      ∧ s.fresh ≤ (pushAll s vs).fresh := by
  intro vs
  induction vs with
  | nil =>
    intro s l hWF
    exact ⟨[], by simpa using hWF, by simp, fun m _ => rfl, le_rfl⟩
  | cons v vs ih =>
    intro s l hWF
    have hWF0 : WFS s ([] ++ l) := by simpa using hWF
    obtain ⟨hWF1, _, hval1, hpres1, hfresh1⟩ := insert_at_chain (some v) hWF0
    have hWF1' : WFS (push s v) (s.fresh :: l) := by simpa using hWF1
    have hval1' : valOf (push s v) s.fresh = some v := hval1
    have hpres1' : ∀ m, m ≠ s.fresh → valOf (push s v) m = valOf s m := hpres1
    obtain ⟨l'', hWF2, hmap2, hpres2, hfresh2⟩ := ih hWF1'
    have hfr1 : (push s v).fresh = s.fresh + 1 := hfresh1
    refine ⟨l'' ++ [s.fresh], ?_, ?_, ?_, ?_⟩
    · have h0 : (l'' ++ [s.fresh]) ++ l = l'' ++ s.fresh :: l := by simp
      rw [h0]
      exact hWF2
    · rw [List.map_append]
      have hvfin : valOf (pushAll (push s v) vs) s.fresh = some v := by
        rw [hpres2 s.fresh (by omega), hval1']
      simp only [pushAll]
      rw [hmap2]
      simp [hvfin]
    · intro m hm
      have hm1 : m < (push s v).fresh := by omega
      simp only [pushAll]
      rw [hpres2 m hm1, hpres1' m (by omega)]
    · simp only [pushAll]
      omega

theorem filterMap_of_map_some {g : Nat → Option T} :
    ∀ {l : List Nat} {ys : List T}, l.map g = ys.map some → l.filterMap g = ys := by
  intro l
  induction l with
  | nil =>
    intro ys h
    cases ys with
    | nil => rfl
    | cons y ys => exact absurd h (by simp)
  | cons x l ih =>
    intro ys h
    cases ys with
    | nil => exact absurd h (by simp)
    | cons y ys =>
      simp only [List.map_cons, List.cons.injEq] at h
      rw [List.filterMap_cons, h.1, ih h.2]

/-! ## `ValRef::remove` behaviour, and concrete witness states -/

theorem wfs_link_at {s : State T} {l₁ l₂ : List Nat} {n : Nat}
    (h : WFS s (l₁ ++ n :: l₂)) : linkGet s (endLink .head l₁) = some n := by
  obtain ⟨hch, _⟩ := h
  rw [chainL_append, chainL_cons] at hch
  exact hch.2.1

theorem removeVal_spec (s : State T) {n : Nat} {nd : Node T} (h : s.nodes n = some nd) :
    (nd.val = none → removeVal s n = none)
    ∧ (∀ v, nd.val = some v → removeVal s n = some (v, (unlink s n).2)) := by
  rcases hu : unlink s n with ⟨o, s2⟩
  have h1 : o = nd.val := by
    have h0 : (unlink s n).1 = (s.nodes n).bind Node.val := rfl
    rw [hu, h] at h0
    simpa using h0
  subst h1
  constructor
  · intro hvn
    simp [removeVal, hu, hvn]
  · intro v hv
    simp [removeVal, hu, hv]

/-- A concrete two-element list: values 7 then 3 (addresses 1 and 0). -/
def wState : State Nat :=
  { headLink := some 1,
    nodes := fun m =>
      if m = 1 then some ⟨some 0, .head, some 7⟩
      else if m = 0 then some ⟨none, .nextOf 1, some 3⟩
      else none,
    fresh := 2 }

theorem wState_wfs : WFS wState [1, 0] := by
  refine ⟨by decide, ?_⟩
  intro n hn
  have hfr : wState.fresh = 2 := rfl
  rw [hfr] at hn
  have h1 : n ≠ 1 := by omega
  have h0 : n ≠ 0 := by omega
  simp [wState, h1, h0]

/-- A concrete list with a cursor sentinel at the front: sentinel 2, then
values 7 and 3. -/
def wStateC : State Nat :=
  { headLink := some 2,
    nodes := fun m =>
      if m = 2 then some ⟨some 1, .head, none⟩
      else if m = 1 then some ⟨some 0, .nextOf 2, some 7⟩
      else if m = 0 then some ⟨none, .nextOf 1, some 3⟩
      else none,
    fresh := 3 }

theorem wStateC_wfs : WFS wStateC [2, 1, 0] := by
  refine ⟨by decide, ?_⟩
  intro n hn
  have hfr : wStateC.fresh = 3 := rfl
  rw [hfr] at hn
  have h2 : n ≠ 2 := by omega
  have h1 : n ≠ 1 := by omega
  have h0 : n ≠ 0 := by omega
  simp [wStateC, h2, h1, h0]

/-- A concrete list in mid-traversal shape: value node 1, then the
cursor's sentinel 2, then value node 0 (as after `next()` returned 1's
node). -/
def wStateD : State Nat :=
  { headLink := some 1,
    nodes := fun m =>
      if m = 1 then some ⟨some 2, .head, some 7⟩
      else if m = 2 then some ⟨some 0, .nextOf 1, none⟩
      else if m = 0 then some ⟨none, .nextOf 2, some 3⟩
      else none,
    fresh := 3 }

theorem wStateD_wfs : WFS wStateD [1, 2, 0] := by
  refine ⟨by decide, ?_⟩
  intro n hn
  have hfr : wStateD.fresh = 3 := rfl
  rw [hfr] at hn
  have h2 : n ≠ 2 := by omega
  have h1 : n ≠ 1 := by omega
  have h0 : n ≠ 0 := by omega
  simp [wStateD, h2, h1, h0]

/-! ## The claims -/

/-- C1: Back-link invariant.  For every `Link` that currently owns a node,
that node's back-link refers to exactly that link — this is what
`WFS s l` asserts for every node reachable from the head (`ChainL`
requires `ownOf s n = some L` for each node `n` and its owning link `L`).
The invariant holds for the empty list produced by `TailList::new`, and is
preserved by every public operation: `push`, `cursor` creation,
`Cursor::next` (with any fuel, whenever it returns), `Cursor` drop,
`ValRef::insert_before` / `insert_after` / `remove`, and the
`TailValRef::tail` / `into_tail` split (`into_passive` and the delegated
`TailValRef` operations perform no further state change). -/
theorem backlink_invariant_public_ops (T : Type) :
    WFS (emptyState T) []
    ∧ (∀ (s : State T) (l : List Nat) (v : T), WFS s l → ∃ l', WFS (push s v) l')
    ∧ (∀ (s : State T) (l : List Nat), WFS s l → ∃ l', WFS (mkCursor s).1 l')
    ∧ (∀ (s : State T) (l₁ l₂ : List Nat) (d f : Nat) (s' : State T) (r : Option Nat),
        WFS s (l₁ ++ d :: l₂) → valOf s d = none →
        cursorNext f s d = some (s', r) → ∃ l', WFS s' l')
    ∧ (∀ (s : State T) (l₁ l₂ : List Nat) (d : Nat),
        WFS s (l₁ ++ d :: l₂) → ∃ l', WFS (dropCursor s d) l')
    ∧ (∀ (s : State T) (l₁ l₂ : List Nat) (n : Nat) (v : T),
        WFS s (l₁ ++ n :: l₂) → ∃ l', WFS (insertBefore s n v).1 l')
    ∧ (∀ (s : State T) (l₁ l₂ : List Nat) (n : Nat) (v : T),
        WFS s (l₁ ++ n :: l₂) → ∃ l', WFS (insertAfter s n v).1 l')
    ∧ (∀ (s : State T) (l₁ l₂ : List Nat) (n : Nat) (v : T) (s' : State T),
        WFS s (l₁ ++ n :: l₂) → removeVal s n = some (v, s') → ∃ l', WFS s' l')
    ∧ (∀ (s : State T) (l₁ l₂ : List Nat) (n : Nat),
        WFS s (l₁ ++ n :: l₂) → ∃ l', WFS (tailSplit s n).1 l') := by
  refine ⟨wfs_empty T, ?_, ?_, ?_, ?_, ?_, ?_, ?_, ?_⟩
  · intro s l v hWF
    have hWF0 : WFS s ([] ++ l) := by simpa using hWF
    exact ⟨[] ++ s.fresh :: l, (insert_at_chain (some v) hWF0).1⟩
  · intro s l hWF
    have hWF0 : WFS s ([] ++ l) := by simpa using hWF
    exact ⟨[] ++ s.fresh :: l, (insert_at_chain none hWF0).1⟩
  · intro s l₁ l₂ d f s' r hWF hdum hcn
    obtain ⟨l', hWF', _⟩ := next_preserves f hWF hdum hcn
    exact ⟨l', hWF'⟩
  · intro s l₁ l₂ d hWF
    exact ⟨l₁ ++ l₂, (unlink_chain hWF).2.1⟩
  · intro s l₁ l₂ n v hWF
    have hgoal : ∃ l', WFS (insert_at s (owningD s n) (some v)).1 l' := by
      rw [owningD_eq s (wfs_own_at hWF)]
      exact ⟨l₁ ++ s.fresh :: n :: l₂, (insert_at_chain (some v) hWF).1⟩
    exact hgoal
  · intro s l₁ l₂ n v hWF
    have hWF0 : WFS s ((l₁ ++ [n]) ++ l₂) := by simpa using hWF
    have h1 := (insert_at_chain (some v) hWF0).1
    rw [endLink_snoc] at h1
    exact ⟨(l₁ ++ [n]) ++ s.fresh :: l₂, h1⟩
  · intro s l₁ l₂ n v s' hWF hrm
    rcases hu : unlink s n with ⟨o, s2⟩
    have hs2 : s2 = (unlink s n).2 := by rw [hu]
    rcases o with _ | w
    · rw [removeVal, hu] at hrm
      exact absurd hrm (by simp)
    · rw [removeVal, hu] at hrm
      simp at hrm
      obtain ⟨_, rfl⟩ := hrm
      rw [hs2]
      exact ⟨l₁ ++ l₂, (unlink_chain hWF).2.1⟩
  · intro s l₁ l₂ n hWF
    have hWF0 : WFS s ((l₁ ++ [n]) ++ l₂) := by simpa using hWF
    have h1 := (insert_at_chain none hWF0).1
    rw [endLink_snoc] at h1
    exact ⟨(l₁ ++ [n]) ++ s.fresh :: l₂, h1⟩

/-- Witness for C1: each preservation component applied to a small
concrete list. -/
theorem backlink_invariant_public_ops_witness :
    WFS (emptyState Nat) []
    ∧ (∃ l', WFS (push wState 9) l')
    ∧ (∃ l', WFS (mkCursor wState).1 l')
    ∧ (∃ l', WFS (swap_places wStateC 2 1) l')
    ∧ (∃ l', WFS (dropCursor wStateC 2) l')
    ∧ (∃ l', WFS (insertBefore wState 1 9).1 l')
    ∧ (∃ l', WFS (insertAfter wState 1 9).1 l')
    ∧ (∃ l', WFS ((unlink wState 1).2) l')
    ∧ (∃ l', WFS (tailSplit wState 1).1 l') := by
  obtain ⟨P1, P2, P3, P4, P5, P6, P7, P8, P9⟩ := backlink_invariant_public_ops Nat
  refine ⟨P1, P2 wState [1, 0] 9 wState_wfs, P3 wState [1, 0] wState_wfs, ?_, ?_, ?_, ?_, ?_, ?_⟩
  · exact P4 wStateC [] [1, 0] 2 3 (swap_places wStateC 2 1) (some 1) wStateC_wfs rfl rfl
  · exact P5 wStateC [] [1, 0] 2 wStateC_wfs
  · exact P6 wState [] [0] 1 9 wState_wfs
  · exact P7 wState [] [0] 1 9 wState_wfs
  · exact P8 wState [] [0] 1 7 ((unlink wState 1).2) wState_wfs rfl
  · exact P9 wState [] [0] 1 wState_wfs

/-- C2: Order preservation.  Pushing `v0, v1, …, v(n-1)` in that order
onto a fresh `TailList` and then fully draining a cursor yields exactly
`v(n-1), …, v1, v0` — every value once, most-recently-pushed first. -/
theorem push_drain_order (T : Type) (vs : List T) :
    ∃ s', drainAux (vs.length + 1) (mkCursor (pushAll (emptyState T) vs)).1
        (mkCursor (pushAll (emptyState T) vs)).2 = some (s', vs.reverse) := by
  obtain ⟨l', hWF, hmap, _, _⟩ := pushAll_chain vs (wfs_empty T)
  have hWF0 : WFS (pushAll (emptyState T) vs) ([] ++ l') := by simpa using hWF
  obtain ⟨hWF1, hid, hvalD, hpresD, _⟩ := insert_at_chain (T := T) none hWF0
  have hWF1' : WFS (mkCursor (pushAll (emptyState T) vs)).1
      ([] ++ (pushAll (emptyState T) vs).fresh :: l') := hWF1
  have hdum : valOf (mkCursor (pushAll (emptyState T) vs)).1
      (pushAll (emptyState T) vs).fresh = none := hvalD
  have hpresD' : ∀ m, m ≠ (pushAll (emptyState T) vs).fresh →
      valOf (mkCursor (pushAll (emptyState T) vs)).1 m
        = valOf (pushAll (emptyState T) vs) m := hpresD
  have hd : (mkCursor (pushAll (emptyState T) vs)).2
      = (pushAll (emptyState T) vs).fresh := hid
  have hlen : l'.length = vs.length := by
    have h := congrArg List.length hmap
    simpa using h
  obtain ⟨s', hdr, _, _, _⟩ :=
    drain_run l'.length le_rfl (vs.length + 1) hWF1' hdum (by omega)
  have hvals' : ∀ q ∈ l', valOf (mkCursor (pushAll (emptyState T) vs)).1 q
      = valOf (pushAll (emptyState T) vs) q := by
    intro q hq
    obtain ⟨nd, hnd⟩ := wfs_alive hWF (by simpa using hq)
    have hlt := alive_lt_fresh hWF.2 hnd
    exact hpresD' q (by omega)
  have hfm : l'.filterMap (valOf (mkCursor (pushAll (emptyState T) vs)).1)
      = vs.reverse := by
    apply filterMap_of_map_some
    calc l'.map (valOf (mkCursor (pushAll (emptyState T) vs)).1)
        = l'.map (valOf (pushAll (emptyState T) vs)) := List.map_congr_left hvals'
      _ = vs.reverse.map some := hmap
  rw [hd]
  exact ⟨s', by rw [hdr, hfm]⟩

theorem wfs_insert_prereq {s : State T} {l₁ l₂ : List Nat} (h : WFS s (l₁ ++ l₂)) :
    LinkLive s (endLink .head l₁)
    ∧ (∀ m, linkGet s (endLink .head l₁) = some m → ∃ nd, s.nodes m = some nd) := by
  obtain ⟨hch, hfr⟩ := h
  rw [chainL_append] at hch
  obtain ⟨hseg, htail⟩ := hch
  refine ⟨seg_endLink_live trivial hseg, ?_⟩
  intro m hm
  rcases l₂ with _ | ⟨m', l₂'⟩
  · rw [chainL_nil] at htail
    rw [htail] at hm
    exact Option.noConfusion hm
  · rw [chainL_cons] at htail
    obtain rfl : m' = m := by
      rw [htail.1] at hm
      exact Option.some.inj hm
    exact alive_of_ownOf s htail.2.1

/-- C3: `insert_at` postcondition.  At any link of a well-formed list
(the link one past the prefix `l₁`): the returned node is the freshly
allocated one; the link's old content has moved into the new node's
forward slot; the link now points at the new node, whose back-link is the
link; the back-link of the node one hop further down now refers to the
new node's forward slot; everything previously linked there is preserved
(the chain is the old chain with the new node inserted at that position);
the new node carries the given payload and no other node's payload
changed. -/
theorem insert_at_postcondition (T : Type) (s : State T) (l₁ l₂ : List Nat)
    (v : Option T) (h : WFS s (l₁ ++ l₂)) :
    (insert_at s (endLink .head l₁) v).2 = s.fresh
    ∧ linkGet (insert_at s (endLink .head l₁) v).1 (endLink .head l₁) = some s.fresh
    ∧ linkGet (insert_at s (endLink .head l₁) v).1 (.nextOf s.fresh)
        = linkGet s (endLink .head l₁)
    ∧ ownOf (insert_at s (endLink .head l₁) v).1 s.fresh = some (endLink .head l₁)
    ∧ (∀ c, linkGet s (endLink .head l₁) = some c →
        ownOf (insert_at s (endLink .head l₁) v).1 c = some (.nextOf s.fresh))
    ∧ WFS (insert_at s (endLink .head l₁) v).1 (l₁ ++ s.fresh :: l₂)
    ∧ valOf (insert_at s (endLink .head l₁) v).1 s.fresh = v
    ∧ (∀ m, m ≠ s.fresh → valOf (insert_at s (endLink .head l₁) v).1 m = valOf s m) := by
  obtain ⟨hL, hc⟩ := wfs_insert_prereq h
  obtain ⟨R1, _, R3, R4, _, R6, R7, _, _, _, _⟩ :=
    insert_at_reads s (endLink .head l₁) v hL h.2 hc
  obtain ⟨Q1, _, Q3, Q4, _⟩ := insert_at_chain v h
  exact ⟨R1, R3, R4, R6, R7, Q1, Q3, Q4⟩

/-- Witness for C3: inserting the value 9 after the first node of a
concrete two-element list. -/
theorem insert_at_postcondition_witness :
    (insert_at wState (endLink .head [1]) (some 9)).2 = wState.fresh
    ∧ WFS (insert_at wState (endLink .head [1]) (some 9)).1 ([1] ++ wState.fresh :: [0])
    ∧ valOf (insert_at wState (endLink .head [1]) (some 9)).1 wState.fresh = some 9 :=
  ⟨(insert_at_postcondition Nat wState [1] [0] (some 9) wState_wfs).1,
    (insert_at_postcondition Nat wState [1] [0] (some 9) wState_wfs).2.2.2.2.2.1,
    (insert_at_postcondition Nat wState [1] [0] (some 9) wState_wfs).2.2.2.2.2.2.1⟩

/-- A concrete three-element list (values 2, 1, 0 at addresses 2, 1, 0)
used to refute the non-adjacent case of C4. -/
def c4state : State Nat :=
  { headLink := some 2,
    nodes := fun m =>
      if m = 2 then some ⟨some 1, .head, some 2⟩
      else if m = 1 then some ⟨some 0, .nextOf 2, some 1⟩
      else if m = 0 then some ⟨none, .nextOf 1, some 0⟩
      else none,
    fresh := 3 }

/-- C4 counterexample: `swap_places` on two *distinct but non-adjacent*
nodes of a well-formed list does NOT restore the back-link invariant.
Swapping the first node (address 2) with the last (address 0) of the
concrete list [2,1,0] produces the topology head → 0 → 1 → 2, in which
node 2 is owned by node 1's forward link, yet its back-link still says
`head`: the claimed invariant restoration fails, and no well-formed chain
describes the result. -/
theorem swap_places_nonadjacent_breaks_backlink :
    WFS c4state [2, 1, 0]
    ∧ (2 : Nat) ≠ 0
    ∧ linkGet (swap_places c4state 2 0) .head = some 0
    ∧ linkGet (swap_places c4state 2 0) (.nextOf 0) = some 1
    ∧ linkGet (swap_places c4state 2 0) (.nextOf 1) = some 2
    ∧ ownOf (swap_places c4state 2 0) 2 = some .head
    ∧ ownOf (swap_places c4state 2 0) 2 ≠ some (.nextOf 1)
    ∧ ¬ ChainL (swap_places c4state 2 0) .head [0, 1, 2] := by
  refine ⟨⟨by decide, ?_⟩, by decide, by decide, by decide, by decide, by decide,
    by decide, by decide⟩
  intro n hn
  have hfr : c4state.fresh = 3 := rfl
  rw [hfr] at hn
  have h2 : n ≠ 2 := by omega
  have h1 : n ≠ 1 := by omega
  have h0 : n ≠ 0 := by omega
  simp [c4state, h2, h1, h0]

/-- C4, amended to the case the cursor actually exercises (and the only
one the code handles): for *adjacent* nodes `a` and `b` — `a`'s forward
link owns `b` — `swap_places` exchanges the two nodes' places: whoever
owned `a` now owns `b`, `b`'s forward link now owns `a`, whatever
followed `b` now follows `a`, the values stay with their nodes, and the
back-link invariant is restored at all four affected edges (the resulting
chain is again well-formed). -/
theorem swap_places_adjacent_postcondition (T : Type) (s : State T)
    (l₁ l₂ : List Nat) (a b : Nat) (h : WFS s (l₁ ++ a :: b :: l₂)) :
    WFS (swap_places s a b) (l₁ ++ b :: a :: l₂)
    ∧ (∀ m, valOf (swap_places s a b) m = valOf s m)
    ∧ linkGet (swap_places s a b) (endLink .head l₁) = some b
    ∧ linkGet (swap_places s a b) (.nextOf b) = some a
    ∧ linkGet (swap_places s a b) (.nextOf a) = linkGet s (.nextOf b)
    ∧ ownOf (swap_places s a b) b = some (endLink .head l₁)
    ∧ ownOf (swap_places s a b) a = some (.nextOf b) := by
  have hWF' := swap_adj_chain h
  have hlink1 : linkGet (swap_places s a b) (endLink .head l₁) = some b :=
    wfs_link_at hWF'
  have hWF2 : WFS (swap_places s a b) ((l₁ ++ [b]) ++ a :: l₂) := by
    have h0 : (l₁ ++ [b]) ++ a :: l₂ = l₁ ++ b :: a :: l₂ := by simp
    rw [h0]
    exact hWF'
  have hlink2 : linkGet (swap_places s a b) (.nextOf b) = some a := by
    have h1 := wfs_link_at hWF2
    rw [endLink_snoc] at h1
    exact h1
  have hlink3 : linkGet (swap_places s a b) (.nextOf a) = linkGet s (.nextOf b) := by
    have h1 := wfs_next_link hWF2
    have hold : WFS s ((l₁ ++ [a]) ++ b :: l₂) := by
      have h0 : (l₁ ++ [a]) ++ b :: l₂ = l₁ ++ a :: b :: l₂ := by simp
      rw [h0]
      exact h
    have h2 := wfs_next_link hold
    rw [h1, h2]
  have hown1 : ownOf (swap_places s a b) b = some (endLink .head l₁) :=
    wfs_own_at hWF'
  have hown2 : ownOf (swap_places s a b) a = some (.nextOf b) := by
    have h1 := wfs_own_at hWF2
    rw [endLink_snoc] at h1
    exact h1
  exact ⟨hWF', fun m => valOf_swap_places s a b m, hlink1, hlink2, hlink3, hown1, hown2⟩

/-- Witness for the amended C4: swapping the (adjacent) first two nodes
of the concrete list [2,1,0]. -/
theorem swap_places_adjacent_postcondition_witness :
    WFS (swap_places c4state 2 1) ([] ++ 1 :: 2 :: [0])
    ∧ linkGet (swap_places c4state 2 1) (.nextOf 1) = some 2
    ∧ ownOf (swap_places c4state 2 1) 2 = some (.nextOf 1) := by
  have h : WFS c4state ([] ++ 2 :: 1 :: [0]) := by
    refine ⟨by decide, ?_⟩
    intro n hn
    have hfr : c4state.fresh = 3 := rfl
    rw [hfr] at hn
    have h2 : n ≠ 2 := by omega
    have h1 : n ≠ 1 := by omega
    have h0 : n ≠ 0 := by omega
    simp [c4state, h2, h1, h0]
  exact ⟨(swap_places_adjacent_postcondition Nat c4state [] [0] 2 1 h).1,
    (swap_places_adjacent_postcondition Nat c4state [] [0] 2 1 h).2.2.2.1,
    (swap_places_adjacent_postcondition Nat c4state [] [0] 2 1 h).2.2.2.2.2.2⟩

/-- C5: removing a sentinel fails fast, removing a value node returns the
value.  `removeVal` returning `none` models the
`unreachable!("cannot remove dummy node")` panic in `ValRef::remove` — an
unrecoverable invariant violation, not an error value handed back to the
caller; when the node holds a value, exactly that value is returned. -/
theorem remove_sentinel_fails_fast (T : Type) (s : State T) (n : Nat) (nd : Node T)
    (h : s.nodes n = some nd) :
    (nd.val = none → removeVal s n = none)
    ∧ (∀ v, nd.val = some v → removeVal s n = some (v, (unlink s n).2)) :=
  removeVal_spec s h

/-- Witness for C5: removing the sentinel of a concrete cursor state
panics (models as `none`); removing the value node 1 of a concrete list
returns its value 7. -/
theorem remove_sentinel_fails_fast_witness :
    removeVal wStateC 2 = none
    ∧ removeVal wState 1 = some (7, (unlink wState 1).2) :=
  ⟨(remove_sentinel_fails_fast Nat wStateC 2 ⟨some 1, .head, none⟩ rfl).1 rfl,
    (remove_sentinel_fails_fast Nat wState 1 ⟨some 0, .head, some 7⟩ rfl).2 7 rfl⟩

/-! ### C6: the round-trip scenario, step by step -/

/-- push 0, 1, 2 onto a fresh list (node addresses 0, 1, 2; list [2,1,0]). -/
def c6s0 : State Nat := pushAll (emptyState Nat) [0, 1, 2]

/-- `list.cursor()`: the sentinel is the fresh node 3. -/
def c6cur : State Nat × Nat := mkCursor c6s0

/-- First `next()`. -/
def c6n1 : Option (State Nat × Option Nat) := cursorNext 9 c6cur.1 c6cur.2

def c6s1 : State Nat := stepState (emptyState Nat) c6n1

/-- Second `next()`. -/
def c6n2 : Option (State Nat × Option Nat) := cursorNext 9 c6s1 3

def c6s2 : State Nat := stepState (emptyState Nat) c6n2

/-- `insert_before(9)` on the handle for the node holding 1 (address 1);
the new node gets address 4. -/
def c6ins : State Nat × Nat := insertBefore c6s2 1 9

/-- Third `next()` on the same cursor. -/
def c6n3 : Option (State Nat × Option Nat) := cursorNext 9 c6ins.1 3

def c6s3 : State Nat := stepState (emptyState Nat) c6n3

/-- Dropping the cursor, then opening a fresh one (sentinel 5) and
draining it. -/
def c6drop : State Nat := dropCursor c6s3 3

def c6cur2 : State Nat × Nat := mkCursor c6drop

def c6drain : Option (State Nat × List Nat) := drainAux 9 c6cur2.1 c6cur2.2

/-- C6 counterexample: in the round-trip scenario the first two `next()`
calls yield 2 and 1 as claimed, but after `insert_before(9)` on the
handle for 1 the same cursor's *third* `next()` yields 0, not 1 — the
cursor's sentinel already sits past the node holding 1, so the third call
returns the next remaining element. -/
theorem round_trip_third_next_yields_zero :
    nextVal c6n1 = some (some 2)
    ∧ nextVal c6n2 = some (some 1)
    ∧ nextVal c6n3 = some (some 0)
    ∧ nextVal c6n3 ≠ some (some 1) := by decide

/-- C6, amended: push 0,1,2 (list [2,1,0]); the cursor's first `next()`
yields 2 and its second yields 1; `insert_before(9)` on the handle for 1
makes the list logically [2,9,1,0] (the chain is 2, 4, 1, sentinel, 0
with values 2, 9, 1, –, 0); the same cursor's third `next()` yields 0
(the insertion happened before the already-passed node and is not
revisited); and draining a fresh cursor afterwards yields 2, 9, 1, 0. -/
theorem round_trip_scenario_amended :
    nextVal c6n1 = some (some 2)
    ∧ nextVal c6n2 = some (some 1)
    ∧ c6ins.2 = 4
    ∧ valOf c6ins.1 4 = some 9
    ∧ ChainL c6ins.1 .head [2, 4, 1, 3, 0]
    ∧ List.filterMap (valOf c6ins.1) [2, 4, 1, 3, 0] = [2, 9, 1, 0]
    ∧ nextVal c6n3 = some (some 0)
    ∧ (c6drain.map Prod.snd) = some [2, 9, 1, 0] := by decide

/-- C7: Split/rejoin equivalence.  In the configuration right after a
cursor's `next()` returned the handle for node `n` (so the chain is
`l₁, n, d, l₂` with sentinel `d`), splitting the handle via `tail()` /
`into_tail()` — both insert a fresh sentinel right after `n` — and fully
draining the resulting tail cursor yields exactly the same value sequence
that fully draining the original cursor from this point yields. -/
theorem split_drain_equiv (T : Type) (s : State T) (l₁ l₂ : List Nat) (n d : Nat)
    (f : Nat) (hWF : WFS s (l₁ ++ n :: d :: l₂)) (hd : valOf s d = none)
    (_hn : valOf s n ≠ none) (hf : l₂.length + 2 ≤ f) :
    ∃ sA sB, drainAux f s d = some (sA, l₂.filterMap (valOf s))
      ∧ drainAux f (tailSplit s n).1 (tailSplit s n).2
          = some (sB, l₂.filterMap (valOf s)) := by
  have hWF1 : WFS s ((l₁ ++ [n]) ++ d :: l₂) := by
    have h0 : (l₁ ++ [n]) ++ d :: l₂ = l₁ ++ n :: d :: l₂ := by simp
    rw [h0]
    exact hWF
  obtain ⟨sA, hdrA, _, _, _⟩ := drain_run l₂.length le_rfl f hWF1 hd (by omega)
  obtain ⟨hWFi, hidi, hvali, hpresi, _⟩ :=
    insert_at_chain none hWF1
  rw [endLink_snoc] at hWFi hidi hvali hpresi
  have hWFi' : WFS (tailSplit s n).1 ((l₁ ++ [n]) ++ s.fresh :: d :: l₂) := hWFi
  have hdum1 : valOf (tailSplit s n).1 s.fresh = none := hvali
  obtain ⟨sB, hdrB, _, _, _⟩ :=
    drain_run (d :: l₂).length le_rfl f hWFi' hdum1 (by simp at hf ⊢; omega)
  have hdal : d ∈ l₁ ++ n :: d :: l₂ := by simp
  obtain ⟨dnd, hdnd⟩ := wfs_alive hWF hdal
  have hdne : d ≠ s.fresh := by
    have := alive_lt_fresh hWF.2 hdnd
    omega
  have hpresi' : ∀ m, m ≠ s.fresh → valOf (tailSplit s n).1 m = valOf s m := hpresi
  have hcong : (d :: l₂).filterMap (valOf (tailSplit s n).1)
      = l₂.filterMap (valOf s) := by
    rw [List.filterMap_cons]
    have hvd : valOf (tailSplit s n).1 d = none := by
      rw [hpresi' d hdne]
      exact hd
    rw [hvd]
    apply List.filterMap_congr
    intro q hq
    obtain ⟨qnd, hqnd⟩ := wfs_alive hWF (n := q) (by simp [hq])
    have := alive_lt_fresh hWF.2 hqnd
    exact hpresi' q (by omega)
  have hd2 : (tailSplit s n).2 = s.fresh := hidi
  rw [hd2]
  rw [hcong] at hdrB
  exact ⟨sA, sB, hdrA, hdrB⟩

/-- Witness for C7: splitting at the first node of a concrete
mid-traversal list; both drains yield `[3]`. -/
theorem split_drain_equiv_witness :
    ∃ sA sB, drainAux 3 wStateD 2 = some (sA, [3])
      ∧ drainAux 3 (tailSplit wStateD 1).1 (tailSplit wStateD 1).2 = some (sB, [3]) :=
  split_drain_equiv Nat wStateD [] [0] 1 2 3 wStateD_wfs rfl (by decide) (by decide)

/-- C8: Cursor disposal restores the list.  Dropping a cursor unlinks its
sentinel in place: the remaining chain is exactly the old chain with the
sentinel removed (still well-formed), the sentinel's node is deallocated,
every other node keeps its payload, and the list's value sequence is
unchanged — the state a fresh traversal observes is as if the cursor had
never anchored there (mutations made through previously returned handles
are part of `s` already). -/
theorem cursor_drop_restores_list (T : Type) (s : State T) (l₁ l₂ : List Nat) (d : Nat)
    (hWF : WFS s (l₁ ++ d :: l₂)) (hd : valOf s d = none) :
    WFS (dropCursor s d) (l₁ ++ l₂)
    ∧ (dropCursor s d).nodes d = none
    ∧ (∀ m, m ≠ d → valOf (dropCursor s d) m = valOf s m)
    ∧ (l₁ ++ l₂).filterMap (valOf (dropCursor s d))
        = (l₁ ++ d :: l₂).filterMap (valOf s) := by
  obtain ⟨_, hWF', hnone, hpres, _⟩ := unlink_chain hWF
  have hWFd : WFS (dropCursor s d) (l₁ ++ l₂) := hWF'
  have hnoned : (dropCursor s d).nodes d = none := hnone
  have hpresd : ∀ m, m ≠ d → valOf (dropCursor s d) m = valOf s m := hpres
  have hnd := chainL_nodup hWF.1
  have hdisj := List.disjoint_of_nodup_append hnd
  have hdn1 : d ∉ l₁ := fun hm => hdisj hm (by simp)
  have hdn2 : d ∉ l₂ := (List.nodup_cons.mp hnd.of_append_right).1
  refine ⟨hWFd, hnoned, hpresd, ?_⟩
  have hcong : ∀ q ∈ l₁ ++ l₂, valOf (dropCursor s d) q = valOf s q := by
    intro q hq
    rcases List.mem_append.mp hq with hq1 | hq2
    · exact hpresd q (fun hh => hdn1 (hh ▸ hq1))
    · exact hpresd q (fun hh => hdn2 (hh ▸ hq2))
  rw [List.filterMap_congr hcong, List.filterMap_append, List.filterMap_append,
    List.filterMap_cons, hd]

/-- Witness for C8: dropping the cursor of a concrete cursor-bearing
list leaves the two-element list intact. -/
theorem cursor_drop_restores_list_witness :
    WFS (dropCursor wStateC 2) ([] ++ [1, 0])
    ∧ (dropCursor wStateC 2).nodes 2 = none
    ∧ ([] ++ [1, 0]).filterMap (valOf (dropCursor wStateC 2))
        = ([] ++ 2 :: [1, 0]).filterMap (valOf wStateC) :=
  ⟨(cursor_drop_restores_list Nat wStateC [] [1, 0] 2 wStateC_wfs rfl).1,
    (cursor_drop_restores_list Nat wStateC [] [1, 0] 2 wStateC_wfs rfl).2.1,
    (cursor_drop_restores_list Nat wStateC [] [1, 0] 2 wStateC_wfs rfl).2.2.2⟩

/-! ### C9: behaviour of `next()` at the end of the list -/

/-- A one-element list `[5]`. -/
def c9s1 : State Nat := push (emptyState Nat) 5

/-- `list.cursor()`: sentinel 1. -/
def c9cur : State Nat × Nat := mkCursor c9s1

/-- `next()` — returns the node holding 5 and leaves the chain `0, 1`. -/
def c9n1 : Option (State Nat × Option Nat) := cursorNext 3 c9cur.1 c9cur.2

def c9s2 : State Nat := stepState (emptyState Nat) c9n1

/-- `tail()` on the returned handle: an inner cursor with sentinel 2 is
inserted right after node 0, chain `0, 2, 1`. -/
def c9split : State Nat × Nat := tailSplit c9s2 0

/-- The inner cursor's `next()`: it swaps its sentinel 2 past the outer
sentinel 1 and then reports end of list. -/
def c9n2 : Option (State Nat × Option Nat) := cursorNext 3 c9split.1 c9split.2

/-- C9 counterexample: a `next()` call that returns nothing but does NOT
leave the sentinel where it was.  With two nested cursors (outer sentinel
1 behind the inner sentinel 2 at the end of a one-element list), the
inner `next()` returns nothing, yet node 0's forward link changes from
sentinel 2 to sentinel 1 — the inner sentinel moved one slot forward,
so "the sentinel stays where it is and the list is unchanged" fails as a
blanket statement about every `next()` that returns nothing. -/
theorem next_none_can_move_sentinel :
    nextVal c9n1 = some (some 5)
    ∧ c9split.2 = 2
    ∧ linkGet c9split.1 (.nextOf 0) = some 2
    ∧ (c9n2.map fun p => (p.2, linkGet p.1 (.nextOf 0))) = some (none, some 1) := by
  decide

/-- C9, amended: (1) when no node follows the sentinel, `next()` returns
nothing and leaves the state entirely unchanged; (2) whenever `next()`
returns nothing — even if it skipped (and moved past) adjacent foreign
sentinels on the way — afterwards no node follows the sentinel, so (3)
every subsequent `next()` returns nothing and leaves the state unchanged,
as long as nothing is inserted after the sentinel; and (4) a `next()`
call never changes any node's payload. -/
theorem next_exhaustion_behaviour (T : Type) :
    (∀ (s : State T) (d f : Nat), linkGet s (.nextOf d) = none →
        cursorNext (f + 1) s d = some (s, none))
    ∧ (∀ (f : Nat) (s s' : State T) (d : Nat), cursorNext f s d = some (s', none) →
        linkGet s' (.nextOf d) = none)
    ∧ (∀ (f g : Nat) (s s' : State T) (d : Nat), cursorNext f s d = some (s', none) →
        cursorNext (g + 1) s' d = some (s', none))
    ∧ (∀ (f : Nat) (s s' : State T) (d : Nat) (r : Option Nat),
        cursorNext f s d = some (s', r) → ∀ m, valOf s' m = valOf s m) := by
  have hb : ∀ (f : Nat) (s s' : State T) (d : Nat), cursorNext f s d = some (s', none) →
      linkGet s' (.nextOf d) = none := by
    intro f
    induction f with
    | zero =>
      intro s s' d hcn
      exact absurd hcn (by simp [cursorNext])
    | succ f ih =>
      intro s s' d hcn
      rcases hlg : linkGet s (.nextOf d) with _ | b
      · rw [cursorNext_succ_end s f hlg] at hcn
        obtain rfl : s = s' := congrArg Prod.fst (Option.some.inj hcn)
        exact hlg
      · rcases hb2 : (swap_places s d b).nodes b with _ | nd
        · rw [cursorNext_succ_dead s f hlg hb2] at hcn
          exact Option.noConfusion hcn
        · rcases hv : nd.val with _ | v
          · rw [cursorNext_succ_dummy s f hlg hb2 hv] at hcn
            exact ih _ _ _ hcn
          · rw [cursorNext_succ_val s f hlg hb2 hv] at hcn
            have := congrArg Prod.snd (Option.some.inj hcn)
            exact absurd this (by simp)
  have hd : ∀ (f : Nat) (s s' : State T) (d : Nat) (r : Option Nat),
      cursorNext f s d = some (s', r) → ∀ m, valOf s' m = valOf s m := by
    intro f
    induction f with
    | zero =>
      intro s s' d r hcn
      exact absurd hcn (by simp [cursorNext])
    | succ f ih =>
      intro s s' d r hcn m
      rcases hlg : linkGet s (.nextOf d) with _ | b
      · rw [cursorNext_succ_end s f hlg] at hcn
        obtain rfl : s = s' := congrArg Prod.fst (Option.some.inj hcn)
        rfl
      · rcases hb2 : (swap_places s d b).nodes b with _ | nd
        · rw [cursorNext_succ_dead s f hlg hb2] at hcn
          exact Option.noConfusion hcn
        · rcases hv : nd.val with _ | v
          · rw [cursorNext_succ_dummy s f hlg hb2 hv] at hcn
            rw [ih _ _ _ _ hcn m, valOf_swap_places]
          · rw [cursorNext_succ_val s f hlg hb2 hv] at hcn
            obtain rfl : swap_places s d b = s' :=
              congrArg Prod.fst (Option.some.inj hcn)
            exact valOf_swap_places s d b m
  refine ⟨fun s d f h => cursorNext_succ_end s f h, hb, ?_, hd⟩
  intro f g s s' d hcn
  exact cursorNext_succ_end s' g (hb f s s' d hcn)

/-- Witness for the amended C9: on the empty list, `next()` reports end
of list without touching the state, and does so again afterwards. -/
theorem next_exhaustion_behaviour_witness :
    cursorNext 1 (emptyState Nat) 0 = some (emptyState Nat, none)
    ∧ linkGet (emptyState Nat) (.nextOf 0) = none
    ∧ cursorNext 2 (emptyState Nat) 0 = some (emptyState Nat, none) :=
  ⟨(next_exhaustion_behaviour Nat).1 (emptyState Nat) 0 0 rfl,
    (next_exhaustion_behaviour Nat).2.1 1 (emptyState Nat) (emptyState Nat) 0
      ((next_exhaustion_behaviour Nat).1 (emptyState Nat) 0 0 rfl),
    (next_exhaustion_behaviour Nat).2.2.1 1 1 (emptyState Nat) (emptyState Nat) 0
      ((next_exhaustion_behaviour Nat).1 (emptyState Nat) 0 0 rfl)⟩

/-- C10: `next()` never exposes a sentinel.  Whenever `Cursor::next`
returns a handle (with any fuel, on any state), the referenced node is
alive and carries a value — adjacent dummy nodes are skipped by the
recursion — and consequently the `unreachable` branches of `ValRef`'s
dereference and `remove` are not taken for such handles: dereferencing
yields that value and `remove` returns it. -/
theorem next_never_exposes_sentinel (T : Type) :
    ∀ (f : Nat) (s : State T) (d : Nat) (s' : State T) (n : Nat),
      cursorNext f s d = some (s', some n) →
      ∃ nd v, s'.nodes n = some nd ∧ nd.val = some v ∧ valOf s' n = some v
        ∧ removeVal s' n = some (v, (unlink s' n).2) := by
  intro f
  induction f with
  | zero =>
    intro s d s' n hcn
    exact absurd hcn (by simp [cursorNext])
  | succ f ih =>
    intro s d s' n hcn
    rcases hlg : linkGet s (.nextOf d) with _ | b
    · rw [cursorNext_succ_end s f hlg] at hcn
      have := congrArg Prod.snd (Option.some.inj hcn)
      exact absurd this (by simp)
    · rcases hb2 : (swap_places s d b).nodes b with _ | nd
      · rw [cursorNext_succ_dead s f hlg hb2] at hcn
        exact Option.noConfusion hcn
      · rcases hv : nd.val with _ | v
        · rw [cursorNext_succ_dummy s f hlg hb2 hv] at hcn
          exact ih _ _ _ _ hcn
        · rw [cursorNext_succ_val s f hlg hb2 hv] at hcn
          obtain ⟨rfl, hn⟩ : swap_places s d b = s' ∧ (some b : Option Nat) = some n := by
            have := Option.some.inj hcn
            exact ⟨congrArg Prod.fst this, congrArg Prod.snd this⟩
          obtain rfl : b = n := Option.some.inj hn
          refine ⟨nd, v, hb2, hv, ?_, (removeVal_spec _ hb2).2 v hv⟩
          unfold valOf
          rw [hb2]
          exact hv

/-- Witness for C10: the first `next()` on a concrete cursor state
returns the node holding 7, which is alive, dereferences to 7 and can be
removed yielding 7. -/
theorem next_never_exposes_sentinel_witness :
    ∃ nd v, (swap_places wStateC 2 1).nodes 1 = some nd ∧ nd.val = some v
      ∧ valOf (swap_places wStateC 2 1) 1 = some v
      ∧ removeVal (swap_places wStateC 2 1) 1
          = some (v, (unlink (swap_places wStateC 2 1) 1).2) :=
  next_never_exposes_sentinel Nat 3 wStateC 2 (swap_places wStateC 2 1) 1 rfl
